import Mathlib

namespace PseudoCore

/-! # Definitions: shallow embedding of the PseudoCore sources -/

/-!
Verification of the PseudoCore paging/caching runtime against its
natural-language specification.

The development shallowly embeds the C sources:
  * `src/cache.c` / `cache.h` — sharded page cache (hash buckets + LRU +
    dirty write-back + eviction).  Pointers are modelled as integer ids
    into an explicit heap (`Nat → Option cache_entry`); `malloc`/`free`
    become allocation at a fresh id / clearing a `live` flag.  Reading or
    writing a freed or unallocated id is undefined behaviour in C; every
    operation therefore returns `Option`, with `none` meaning the C
    execution is undefined (or does not complete).  The two places where
    `cache.c` reads a field of a just-freed entry (`cache_evict`'s
    `c->lru_tail = c->lru_tail->prev` after `free(evict)`, and the
    read-error teardown's use of `ne->next` after `free(ne)`) are modelled
    by snapshotting the field value immediately before the `free`, which
    is the value those stale reads observe.
  * `src/pseudo_core.c` — the worker loop (`core_run`), the adaptive
    compression level (`determine_compression_level`) and per-worker
    cache instantiation.
  * `src/scheduler.c` — work queues and task migration.
  * `src/ring_cache.c` — the ring log.

Machine integers are `Nat` with explicit reduction modulo `2^64` where
the C arithmetic can wrap (`size_t` / `uint64_t`).  Mutex operations are
elided: the model gives the sequential (single-threaded, or fully
serialised) semantics of each operation.

Ghost instrumentation (never influencing control flow or data):
  * `cache_entry.live`  — allocation status (`false` after `free`);
  * `cache_entry.epoch` / `cache_t.epoch` — cache generation counter,
    bumped by `cache_destroy`, used only in counting invariants;
  * event traces (`CEv`) recording the I/O and logging side effects
    (`pwrite` attempts, `free`s, `fprintf(stderr, ...)` lines).
-/


/-! ## Constants (src/config.h, src/cache.h, src/scheduler.h, ring_cache.h) -/

def BLOCK_SIZE : Nat := 4096

def PAGE_SIZE : Nat := BLOCK_SIZE

def HASH_SIZE : Nat := 2048

def MUTEX_GROUPS : Nat := 16

def MAX_CACHE_ENTRIES : Nat := 8192

def MIGRATION_THRESHOLD : Nat := 5

def COMPRESSION_MIN_LVL : Nat := 1

def COMPRESSION_MAX_LVL : Nat := 9

/-- `#define COMPRESSION_ADAPTIVE_THRESHOLD 0.5` (src/config.h line 12).
    `0.5` is exactly representable as a C `double`, and every ratio the
    program compares against it has the form `cs / 4096.0` with `cs` a
    small nonnegative integer, which is also exact in `double`; the
    rational model is therefore a faithful rendering of the `double`
    comparison performed by `determine_compression_level`. -/
def COMPRESSION_ADAPTIVE_THRESHOLD : ℚ := 1/2

@[reducible] def CORES : Nat := 4
def CACHE_MB : Nat := 128

def RING_SIZE : Nat := CACHE_MB * 1024 * 1024

def MAX_QUEUE_SIZE : Nat := 128

def U64 : Nat := 2^64

/-! ## Page cache data model (src/cache.h)

`cache_entry_t` has a single `next`/`prev` pointer pair; `cache_get`
uses it both as the bucket collision chain and as the LRU linkage,
exactly as in the source. -/

structure cache_entry where
  offset : Nat
  /-- `char data[PAGE_SIZE]`: byte `i` of the page buffer (`0 ≤ i < PAGE_SIZE`). -/
  data : Nat → Nat
  dirty : Bool
  last_access : Nat
  next : Option Nat
  prev : Option Nat
  /-- Ghost: `true` while the `malloc`ed block is allocated, `false` after `free`. -/
  live : Bool
  /-- Ghost: value of the cache generation counter when this entry was allocated. -/
  epoch : Nat

structure cache_t where
  /-- The heap: id (pointer abstraction) ↦ entry, `none` = never allocated. -/
  heap : Nat → Option cache_entry
  /-- Ghost allocator: the next fresh id; all allocated ids are `< nid`. -/
  nid : Nat
  /-- `cache_entry_t *hash[HASH_SIZE]`. -/
  hash : Nat → Option Nat
  lru_head : Option Nat
  lru_tail : Option Nat
  /-- `size_t entry_count`. -/
  entry_count : Nat
  /-- Ghost generation counter, bumped by `cache_destroy`. -/
  epoch : Nat

/-- `hash_func` (src/cache.c lines 8-15), on `uint64_t` arithmetic. -/
def hash_func (off : Nat) : Nat :=
  let o0 := off % U64
  let o1 := Nat.xor (o0 >>> 16) o0
  let o2 := (o1 * 0x45d9f3b) % U64
  let o3 := Nat.xor (o2 >>> 16) o2
  let o4 := (o3 * 0x45d9f3b) % U64
  let o5 := Nat.xor (o4 >>> 16) o4
  (o5 / PAGE_SIZE) % HASH_SIZE

/-- `size_t` decrement (`c->entry_count--`): wraps at zero. -/
def szDec (n : Nat) : Nat := if n = 0 then U64 - 1 else n - 1

/-- `size_t` increment (`c->entry_count++`). -/
def szInc (n : Nat) : Nat := (n + 1) % U64

/-! ### Heap primitives -/

/-- Dereference a (live) entry; `none` = undefined behaviour (dangling pointer). -/
def readE (st : cache_t) (i : Nat) : Option cache_entry :=
  match st.heap i with
  | some e => if e.live then some e else none
  | none => none

/-- Write through a (live) pointer; `none` = undefined behaviour. -/
def writeE (st : cache_t) (i : Nat) (f : cache_entry → cache_entry) : Option cache_t :=
  match readE st i with
  | some e => some { st with heap := fun j => if j = i then some (f e) else st.heap j }
  | none => none

/-- `malloc` of a fresh entry (always at the fresh id `st.nid`). -/
def allocE (st : cache_t) (e : cache_entry) : cache_t × Nat :=
  ({ st with
      heap := fun j => if j = st.nid then some { e with live := true, epoch := st.epoch } else st.heap j
      nid := st.nid + 1 }, st.nid)

/-- `if (p) p->field = value;` — guarded write through an optional pointer
(no-op on `NULL`, undefined on a dangling pointer). -/
def optWrite (st : cache_t) (p : Option Nat) (f : cache_entry → cache_entry) : Option cache_t :=
  match p with
  | some i => writeE st i f
  | none => some st

/-- `free` of a live entry; `none` = double free / invalid free (UB). -/
def freeE (st : cache_t) (i : Nat) : Option cache_t :=
  match readE st i with
  | some e => some { st with heap := fun j => if j = i then some { e with live := false } else st.heap j }
  | none => none

/-! ### Event trace (ghost observations of I/O and stderr logging) -/

inductive CEv where
  /-- One `log_cache_message(level, ...)` line; the level string is the
      first argument of the C call (`"ERROR"` or `"INFO"`; `cache.c`
      never passes any other level). -/
  | logE (level : String)
  /-- One `pwrite(fd, _, len, off)` attempt and whether it succeeded. -/
  | wbE (off : Nat) (len : Nat) (ok : Bool)
  /-- One `free(e)` of a cache entry, with its offset and the value of
      `e->dirty` at the moment the memory is reclaimed. -/
  | freeEv (off : Nat) (dirty : Bool)
  /-- One invocation of `cache_evict` from within `cache_get`. -/
  | evictCall
deriving DecidableEq, Repr

/-- `cache_init` (src/cache.c lines 30-43). -/
def cache_init : cache_t :=
  { heap := fun _ => none
    nid := 0
    hash := fun _ => none
    lru_head := none
    lru_tail := none
    entry_count := 0
    epoch := 0 }

/-! ## Cache operations (src/cache.c) -/

/-- The `while (e) { if (e->offset == off) ... ; e = e->next; }` chain walk of
`cache_get`.  Fuel bounds the walk: a chain longer than the number of entries
ever allocated must revisit a node, i.e. the C loop never terminates
(modelled as undefined, `none`).  `some none` = fell off the chain (miss),
`some (some i)` = found entry `i`. -/
def chainFind (st : cache_t) (off : Nat) : Option Nat → Nat → Option (Option Nat)
  | none, _ => some none
  | some _, 0 => none
  | some i, fuel + 1 =>
    match readE st i with
    | none => none
    | some e => if e.offset = off then some (some i) else chainFind st off e.next fuel

/-- The hit path of `cache_get` (src/cache.c lines 50-69): mark dirty on
write intent, refresh `last_access`, and move the entry to the LRU head.
Each C statement re-reads memory, so aliased pointers behave as in the
source. -/
def promote (st0 : cache_t) (i : Nat) (wr : Bool) (now : Nat) : Option cache_t :=
  -- if (write) e->dirty = 1;  e->last_access = time(NULL);
  Option.bind (writeE st0 i (fun e =>
    { e with dirty := if wr then true else e.dirty, last_access := now })) fun st1 =>
  if st1.lru_head = some i then some st1
  else
  -- if (e->prev) e->prev->next = e->next;
  Option.bind (readE st1 i) fun e1 =>
  Option.bind (optWrite st1 e1.prev (fun pe => { pe with next := e1.next })) fun st2 =>
  -- if (e->next) e->next->prev = e->prev;
  Option.bind (readE st2 i) fun e2 =>
  Option.bind (optWrite st2 e2.next (fun ne => { ne with prev := e2.prev })) fun st3 =>
  -- if (e == c->lru_tail) c->lru_tail = e->prev;
  Option.bind (readE st3 i) fun e3 =>
  let st4 := if st3.lru_tail = some i then { st3 with lru_tail := e3.prev } else st3
  -- e->next = c->lru_head;  e->prev = NULL;
  Option.bind (writeE st4 i (fun e => { e with next := st4.lru_head, prev := none })) fun st5 =>
  -- if (c->lru_head) c->lru_head->prev = e;
  Option.bind (optWrite st5 st5.lru_head (fun he => { he with prev := some i })) fun st6 =>
  -- c->lru_head = e;  if (!c->lru_tail) c->lru_tail = e;
  let st7 := { st6 with lru_head := some i }
  some (if st7.lru_tail = none then { st7 with lru_tail := some i } else st7)

/-- `cache_evict` (src/cache.c lines 115-142).  `wbOk` is the success of the
`pwrite` write-back, if one is issued.  The `c->lru_tail = c->lru_tail->prev`
statement after `free(evict)` is modelled by the snapshot of `evict->prev`
taken at the `free` (the value the stale read observes). -/
def cache_evict (st0 : cache_t) (wbOk : Bool) : Option (cache_t × List CEv) :=
  match st0.lru_tail with
  | none => some (st0, [])
  | some t =>
    Option.bind (readE st0 t) fun e =>
    let h := hash_func e.offset
    -- if (evict->prev) evict->prev->next = evict->next;
    Option.bind (optWrite st0 e.prev (fun pe => { pe with next := e.next })) fun st1 =>
    -- if (evict->next) evict->next->prev = evict->prev;
    Option.bind (readE st1 t) fun e1 =>
    Option.bind (optWrite st1 e1.next (fun ne => { ne with prev := e1.prev })) fun st2 =>
    -- if (c->hash[h] == evict) c->hash[h] = evict->next;
    Option.bind (readE st2 t) fun e2 =>
    let st3 := if st2.hash h = some t then
        { st2 with hash := fun b => if b = h then e2.next else st2.hash b } else st2
    -- if (evict->dirty) { pwrite(..., PAGE_SIZE, evict->offset); evict->dirty = 0; }
    Option.bind (readE st3 t) fun e3 =>
    Option.bind
      (if e3.dirty then
        Option.bind (writeE st3 t (fun ee => { ee with dirty := false })) fun stw =>
        some (stw, [CEv.wbE e3.offset PAGE_SIZE wbOk] ++
                    if wbOk then [] else [CEv.logE "ERROR"])
      else some (st3, ([] : List CEv))) fun wbres =>
    -- free(evict); entry_count--; lru_tail = lru_tail->prev (stale); tail->next = NULL
    Option.bind (readE wbres.1 t) fun e4 =>
    Option.bind (freeE wbres.1 t) fun st5 =>
    let st6 := { st5 with entry_count := szDec st5.entry_count, lru_tail := e4.prev }
    Option.bind (optWrite st6 e4.prev (fun ue => { ue with next := none })) fun st7 =>
    some (st7, wbres.2 ++ [CEv.freeEv e4.offset e3.dirty])

/-- I/O environment of one `cache_get` call: `malloc` outcome and contents,
`pread` outcome (error flag; otherwise the byte count is the regular-file
semantics `min PAGE_SIZE (fileSize - off)`), the backing-file bytes, the
clock, and the success of a `pwrite` issued by an inner eviction. -/
structure GetEnv where
  allocOk : Bool
  readErr : Bool
  fileSize : Nat
  fileAt : Nat → Nat
  uninit : Nat → Nat
  now : Nat
  wbOk : Bool

/-- `cache_get` (src/cache.c lines 45-113).  Result: new state, returned
pointer (`some` entry id for `e->data` / `ne->data`, `none` for `NULL`),
and the event trace.  Outer `none` = the C execution is undefined or
non-terminating. -/
def cache_get (st0 : cache_t) (env : GetEnv) (off : Nat) (wr : Bool) :
    Option (cache_t × Option Nat × List CEv) :=
  -- size_t h = hash_func(off); (inlined below)
  match chainFind st0 off (st0.hash (hash_func off)) (st0.nid + 1) with
  | none => none
  | some (some i) => (promote st0 i wr env.now).map (fun st => (st, some i, []))
  | some none =>
    -- miss: cache_entry_t *ne = malloc(sizeof(*ne));
    if env.allocOk = false then some (st0, none, [CEv.logE "ERROR"])
    else
      -- ne->offset/dirty/last_access/next/prev assignments (lines 79-83)
      let entry0 : cache_entry :=
        { offset := off, data := env.uninit, dirty := wr, last_access := env.now
          next := st0.hash (hash_func off), prev := none, live := true, epoch := st0.epoch }
      let st1 := (allocE st0 entry0).1
      let ne := (allocE st0 entry0).2
      -- if (c->hash[h]) c->hash[h]->prev = ne;  c->hash[h] = ne;
      Option.bind (optWrite st1 (st1.hash (hash_func off)) (fun be => { be with prev := some ne })) fun st2 =>
      let st3 := { st2 with hash := fun b => if b = hash_func off then some ne else st2.hash b }
      if env.readErr then
        -- read error teardown (lines 88-97); ne->next is read after free(ne):
        -- modelled by the snapshot at the free
        Option.bind (readE st3 ne) fun e =>
        Option.bind (freeE st3 ne) fun st4 =>
        let st5 := if st4.hash (hash_func off) = some ne then
            { st4 with hash := fun b => if b = hash_func off then e.next else st4.hash b } else st4
        Option.bind (optWrite st5 e.next (fun xe => { xe with prev := none })) fun st6 =>
        some (st6, none, [CEv.logE "ERROR"])
      else
        -- pread(fd, ne->data, PAGE_SIZE, off) returned min PAGE_SIZE (fileSize - off)
        let n := min PAGE_SIZE (env.fileSize - off)
        Option.bind (writeE st3 ne (fun ee =>
          { ee with data := fun idx => if idx < n then env.fileAt (off + idx) else env.uninit idx }))
          fun st4 =>
        -- LRU head insertion (lines 99-104)
        Option.bind (writeE st4 ne (fun ee => { ee with next := st4.lru_head, prev := none })) fun st5 =>
        Option.bind (optWrite st5 st5.lru_head (fun he => { he with prev := some ne })) fun st6 =>
        let st7 := { st6 with lru_head := some ne }
        let st8 := if st7.lru_tail = none then { st7 with lru_tail := some ne } else st7
        let st9 := { st8 with entry_count := szInc st8.entry_count }
        -- if (c->entry_count > MAX_CACHE_ENTRIES) cache_evict(c, fd);
        if st9.entry_count > MAX_CACHE_ENTRIES then
          Option.bind (cache_evict st9 env.wbOk) fun r =>
          some (r.1, some ne, CEv.evictCall :: r.2)
        else
          some (st9, some ne, [])

/-- One chain of `cache_destroy`'s per-bucket loop
(`e = c->hash[i]; while (e) { n = e->next; ...; free(e); e = n; }`). -/
def destroyChain (wbOkAt : Nat → Bool) : cache_t → Option Nat → Nat → Option (cache_t × List CEv)
  | st, none, _ => some (st, [])
  | _, some _, 0 => none
  | st, some i, fuel + 1 =>
    Option.bind (readE st i) fun e =>
    Option.bind
      (if e.dirty then
        Option.bind (writeE st i (fun ee => { ee with dirty := false })) fun stw =>
        some (stw, [CEv.wbE e.offset PAGE_SIZE (wbOkAt e.offset)] ++
                    if wbOkAt e.offset then [] else [CEv.logE "ERROR"])
      else some (st, ([] : List CEv))) fun wbres =>
    Option.bind (freeE wbres.1 i) fun st2 =>
    Option.bind (destroyChain wbOkAt st2 e.next fuel) fun rest =>
    some (rest.1, wbres.2 ++ [CEv.freeEv e.offset e.dirty] ++ rest.2)

/-- The bucket loop of `cache_destroy` over the listed bucket indices. -/
def destroyLoop (wbOkAt : Nat → Bool) : cache_t → List Nat → Option (cache_t × List CEv)
  | st, [] => some (st, [])
  | st, b :: bs =>
    Option.bind (destroyChain wbOkAt st (st.hash b) (st.nid + 1)) fun r1 =>
    let st2 := { r1.1 with hash := fun x => if x = b then none else (r1.1).hash x }
    Option.bind (destroyLoop wbOkAt st2 bs) fun r2 =>
    some (r2.1, r1.2 ++ r2.2)

/-- `cache_destroy` (src/cache.c lines 144-174).  `wbOkAt off` is the success
of the shutdown `pwrite` for the dirty page at `off`.  The ghost `epoch` is
bumped: entries leaked by the corrupted bucket walks can never be reached
again (all buckets and the LRU anchors are reset). -/
def cache_destroy (st : cache_t) (wbOkAt : Nat → Bool) : Option (cache_t × List CEv) :=
  Option.bind (destroyLoop wbOkAt st (List.range HASH_SIZE)) fun r =>
  some ({ r.1 with lru_head := none, lru_tail := none, entry_count := 0,
                   epoch := r.1.epoch + 1 },
        r.2 ++ [CEv.logE "INFO"])

/-! ### Operation sequences -/

inductive COp where
  | getO (env : GetEnv) (off : Nat) (wr : Bool)
  | evictO (wbOk : Bool)
  | destroyO (wbOkAt : Nat → Bool)

def runOp (st : cache_t) : COp → Option cache_t
  | .getO env off wr => (cache_get st env off wr).map (·.1)
  | .evictO ok => (cache_evict st ok).map (·.1)
  | .destroyO f => (cache_destroy st f).map (·.1)

/-- Run a sequence of public cache operations from `st`; `some st'` exactly
when every operation in the sequence completes (defined C execution). -/
def runOps (st : cache_t) : List COp → Option cache_t
  | [] => some st
  | o :: os =>
    match runOp st o with
    | none => none
    | some st' => runOps st' os

/-! ### Observers: chain walks used to state the spec's invariants H1 and L1 -/

/-- Ids visited by following `next` from a start pointer (fuelled; `none` =
dangling pointer or a chain longer than every allocation, i.e. a cycle). -/
def chainIds (st : cache_t) : Option Nat → Nat → Option (List Nat)
  | none, _ => some []
  | some _, 0 => none
  | some i, fuel + 1 =>
    match readE st i with
    | none => none
    | some e => (chainIds st e.next fuel).map (i :: ·)

/-- The bucket chain `buckets[b]` as walked by `cache_get` / `cache_destroy`. -/
def bucketIds (st : cache_t) (b : Nat) : Option (List Nat) :=
  chainIds st (st.hash b) (st.nid + 1)

/-- The LRU list walked from `lru_head` via `next`. -/
def lruIds (st : cache_t) : Option (List Nat) :=
  chainIds st st.lru_head (st.nid + 1)

/-! ### Counting invariant (used to verify the `entry_count` bound)

`liveCurB st i`: entry `i` is allocated, not freed, and belongs to the
current cache generation.  `epochLive st` counts such entries.  These are
ghost observations; `cache_t.entry_count` is the C field. -/

def liveCurB (st : cache_t) (i : Nat) : Bool :=
  match st.heap i with
  | some e => e.live && e.epoch == st.epoch
  | none => false

def epochLive (st : cache_t) : Nat :=
  (List.range st.nid).countP (liveCurB st)

/-- A pointer is `none` or refers to an id allocated in the current
generation (possibly already freed — dereferencing then is UB). -/
def curOpt (st : cache_t) : Option Nat → Prop
  | none => True
  | some i => ∃ e, st.heap i = some e ∧ e.epoch = st.epoch

/-- Structural invariant of reachable cache states. -/
structure InvC (st : cache_t) : Prop where
  nb : ∀ i, st.nid ≤ i → st.heap i = none
  epLe : ∀ i e, st.heap i = some e → e.epoch ≤ st.epoch
  buckets : ∀ b, b < HASH_SIZE → curOpt st (st.hash b)
  headC : curOpt st st.lru_head
  tailC : curOpt st st.lru_tail
  fields : ∀ i e, st.heap i = some e → e.live = true → e.epoch = st.epoch →
    curOpt st e.next ∧ curOpt st e.prev

/-- The full reachable-state invariant: structure plus the count equation. -/
def Inv0 (st : cache_t) : Prop := InvC st ∧ st.entry_count = epochLive st

/-- `st'` keeps every allocated id of `st` allocated with the same
generation stamp, and the generation counter is unchanged. -/
def epochPreserving (st st' : cache_t) : Prop :=
  st'.epoch = st.epoch ∧
  ∀ j e, st.heap j = some e → ∃ e', st'.heap j = some e' ∧ e'.epoch = e.epoch

/-! ## Worker pipeline (src/pseudo_core.c) -/

/-- `determine_compression_level` (src/pseudo_core.c lines 85-93).  The C
`double` division and the comparison with `COMPRESSION_ADAPTIVE_THRESHOLD`
are exact for the arguments the program produces (see the threshold's
doc comment), so the rational model is faithful. -/
def determine_compression_level (original_size compressed_size : Nat) : Nat :=
  if original_size = 0 then COMPRESSION_MIN_LVL
  else if (compressed_size : ℚ) / (original_size : ℚ) > COMPRESSION_ADAPTIVE_THRESHOLD then
    COMPRESSION_MAX_LVL
  else COMPRESSION_MIN_LVL

/-- The compression-level bookkeeping of the `core_run` loop (src/pseudo_core.c
lines 199-212): `last_compressed_size` starts at `BLOCK_SIZE`; each iteration
computes `determine_compression_level(BLOCK_SIZE, last_compressed_size)` and,
when `compress_page` returned `cs > 0`, remembers `cs`.  `workerLevels last
outcomes` is the list of levels used for the given `compress_page` outcomes. -/
def workerLevels : Nat → List Int → List Nat
  | _, [] => []
  | last, cs :: rest =>
    determine_compression_level BLOCK_SIZE last ::
      workerLevels (if 0 < cs then cs.toNat else last) rest

def core_run_levels (outcomes : List Int) : List Nat :=
  workerLevels BLOCK_SIZE outcomes

/-- The remembered `last_compressed_size` before iteration `n`. -/
def cprevAt : Nat → List Int → Nat → Nat
  | last, _, 0 => last
  | last, [], _ + 1 => last
  | last, cs :: rest, n + 1 => cprevAt (if 0 < cs then cs.toNat else last) rest n

/-- The level policy exactly as claimed by the specification sentence
(threshold `0.8`).  Modelled from the claim's words, for comparison with
the code's `determine_compression_level`. -/
def claimC3_level (cprev : Nat) : Nat :=
  if (cprev : ℚ) / (PAGE_SIZE : ℚ) > 8/10 then COMPRESSION_MAX_LVL else COMPRESSION_MIN_LVL

/-- The level policy with the threshold the code actually uses
(`COMPRESSION_ADAPTIVE_THRESHOLD = 0.5` from src/config.h). -/
def codeC3_level (cprev : Nat) : Nat :=
  if (cprev : ℚ) / (PAGE_SIZE : ℚ) > COMPRESSION_ADAPTIVE_THRESHOLD then
    COMPRESSION_MAX_LVL
  else COMPRESSION_MIN_LVL

/-- Per-worker cache instantiation (src/pseudo_core.c lines 116-120):
`core_run` declares `cache_t cache;` on the worker's own stack and calls
`cache_init(&cache)`, so each worker owns a distinct cache instance. -/
structure core_state where
  caches : Fin CORES → cache_t

def cores_init : core_state := { caches := fun _ => cache_init }

/-- Worker `w` performing `cache_get(&cache, fd, off, write)` against its
own stack-local cache. -/
def worker_cache_get (cs : core_state) (w : Fin CORES) (env : GetEnv) (off : Nat) (wr : Bool) :
    Option (core_state × Option Nat × List CEv) :=
  (cache_get (cs.caches w) env off wr).map
    (fun r => ({ caches := fun j => if j = w then r.1 else cs.caches j }, r.2))

/-- `if (m) offset = m;` — adoption of a migrated task by the worker loop
(src/pseudo_core.c lines 150-154). -/
def adoptMigrated (offset m : Nat) : Nat := if m ≠ 0 then m else offset

/-! ## Scheduler (src/scheduler.c, src/scheduler.h) -/

structure WorkUnit where
  block : Nat
  hot : Int
  last_seen : Int
deriving DecidableEq, Repr, Inhabited

/-- Donor-selection loop of `scheduler_get_migrated_task` (lines 80-97):
running maximum of foreign queue counts, first strict maximum wins. -/
def donorScanAux (qs : Fin CORES → List WorkUnit) (core : Fin CORES) :
    List (Fin CORES) → Option (Fin CORES) → Nat → Option (Fin CORES) × Nat
  | [], best, m => (best, m)
  | i :: rest, best, m =>
    if i = core then donorScanAux qs core rest best m
    else if (qs i).length > m then donorScanAux qs core rest (some i) (qs i).length
    else donorScanAux qs core rest best m

/-- `for (int i = 0; i < CORES; i++)` with `CORES = 4`. -/
def coreIdxs : List (Fin CORES) := [0, 1, 2, 3]

/-- Victim-selection loop (lines 100-107): hottest in-window unit, first
strict maximum wins; requires `hot > 0` since `max_hotness` starts at 0. -/
def hotScanAux (now : Int) : List WorkUnit → Nat → Option Nat → Int → Option Nat × Int
  | [], _, best, m => (best, m)
  | u :: rest, idx, best, m =>
    if u.hot > m ∧ now - u.last_seen < 10 then hotScanAux now rest (idx + 1) (some idx) u.hot
    else hotScanAux now rest (idx + 1) best m

/-- `scheduler_get_migrated_task` (src/scheduler.c lines 79-125).  Returns
the migrated block offset (`0` is the no-task sentinel) and the updated
queues; removal is the left-shift `for (i = hot_idx; i < count-1; i++)
w[i] = w[i+1]; count--`. -/
def scheduler_get_migrated_task (qs : Fin CORES → List WorkUnit) (core : Fin CORES)
    (now : Int) : Nat × (Fin CORES → List WorkUnit) :=
  match (donorScanAux qs core coreIdxs none 0).1 with
  | none => (0, qs)
  | some d =>
    if (donorScanAux qs core coreIdxs none 0).2 > MIGRATION_THRESHOLD then
      match (hotScanAux now (qs d) 0 none 0).1 with
      | none => (0, qs)
      | some idx =>
        (((qs d).getD idx default).block,
         fun j => if j = d then (qs d).eraseIdx idx else qs j)
    else (0, qs)

/-- A unit is migratable at time `now` (hot floor and 10-second window of
the selection loop). -/
def inWindow (now : Int) (u : WorkUnit) : Prop := now - u.last_seen < 10

/-! ## Ring log (src/ring_cache.c) -/

structure ring_state where
  ring_pos : Nat
  /-- Byte `i` of the `malloc`ed `RING_SIZE` buffer. -/
  ring_buffer : Nat → Nat

/-- `ring_cache_init` with the `malloc`ed buffer's initial contents. -/
def ring_cache_init (uninit : Nat → Nat) : ring_state :=
  { ring_pos := 0, ring_buffer := uninit }

/-- `cache_to_ring` (src/ring_cache.c lines 20-34) on an initialised ring
with a valid `data` pointer (the null guards cannot fire in the model).
The returned flag is `true` when the write was dropped and the overflow
message logged. -/
def cache_to_ring (st : ring_state) (data : Nat → Nat) : ring_state × Bool :=
  if st.ring_pos + BLOCK_SIZE ≤ RING_SIZE then
    ({ ring_pos := (st.ring_pos + BLOCK_SIZE) % RING_SIZE
       ring_buffer := fun i =>
         if st.ring_pos ≤ i ∧ i < st.ring_pos + BLOCK_SIZE then data (i - st.ring_pos)
         else st.ring_buffer i }, false)
  else (st, true)

/-! ## Concrete inputs used by the counterexamples and witnesses -/

/-- A benign I/O environment: allocation succeeds, the read succeeds and
covers the whole page (file of 1 GiB of `1`-bytes), `malloc` memory is
filled with the byte `171`. -/
def tEnv : GetEnv :=
  { allocOk := true, readErr := false, fileSize := 2^30
    fileAt := fun _ => 1, uninit := fun _ => 171, now := 0, wbOk := true }

/-- `tEnv` with a failing `pread`. -/
def tEnvErr : GetEnv := { tEnv with readErr := true }

/-- `tEnv` with the backing file truncated to 5000 bytes (spec scenario
"Partial read"). -/
def tEnvPartial : GetEnv := { tEnv with fileSize := 5000 }

/-- Page-aligned offset with `hash_func offA = 753`. -/
def offA : Nat := 122880

/-- Page-aligned offset with `hash_func offB = 753` (same bucket as `offA`). -/
def offB : Nat := 286720

/-- Page-aligned offset with `hash_func offC = 553` (a different bucket). -/
def offC : Nat := 4096

/-- The three-call sequence refuting H1/L1: two same-bucket loads, then a
hit on the first (its LRU promotion unsplices it from the shared chain). -/
def C1ops : List COp :=
  [COp.getO tEnv offA true, COp.getO tEnv offB true, COp.getO tEnv offA true]

/-- State with entries for `offA` (id 0, bucket 753) and `offC` (id 1,
bucket 553); entry 0's `prev` is its LRU predecessor id 1. -/
def c7pre : cache_t :=
  (runOps cache_init [COp.getO tEnv offA true, COp.getO tEnv offC true]).getD cache_init

/-- A one-entry cache holding a dirty page at `offA`. -/
def c6st : cache_t :=
  (runOps cache_init [COp.getO tEnv offA true]).getD cache_init

/-- The evicted result of `c6st` (for the C6 witness). -/
def c6res : cache_t × List CEv := (cache_evict c6st true).getD (cache_init, [])

/-- The destroy result of `c6st` (for the C6 witness). -/
def c6resD : cache_t × List CEv := (cache_destroy c6st (fun _ => false)).getD (cache_init, [])

/-- A full cache: `MAX_CACHE_ENTRIES` live unlinked entries, entry 0 being
both LRU head and tail, every bucket except the one for `offFull` pointing
at entry 0.  Satisfies `Inv0`; the next miss triggers an eviction. -/
def fullEntry (j : Nat) : cache_entry :=
  { offset := j * PAGE_SIZE, data := fun _ => 0, dirty := false, last_access := 0
    next := none, prev := none, live := true, epoch := 0 }

def offFull : Nat := MAX_CACHE_ENTRIES * PAGE_SIZE

def stFull : cache_t :=
  { heap := fun j => if j < MAX_CACHE_ENTRIES then some (fullEntry j) else none
    nid := MAX_CACHE_ENTRIES
    hash := fun b => if b = hash_func offFull then none else some 0
    lru_head := some 0
    lru_tail := some 0
    entry_count := MAX_CACHE_ENTRIES
    epoch := 0 }

/-- Queues for the scheduler witnesses: worker 1 holds 6 units (count `6 >
MIGRATION_THRESHOLD`), the hottest in-window unit having block offset 0. -/
def qsW : Fin CORES → List WorkUnit :=
  fun j => if j = 1 then
    [⟨0, 7, 0⟩, ⟨4096, 3, 0⟩, ⟨8192, 1, 0⟩, ⟨12288, 1, 0⟩, ⟨16384, 1, 0⟩, ⟨20480, 1, 0⟩]
  else []

/-- Event list safety: every `free` of a dirty page is preceded by a
write-back attempt of `PAGE_SIZE` bytes at that page's offset. -/
def DirtyFreeSafe (evs : List CEv) : Prop :=
  ∀ i off, i < evs.length → evs.getD i CEv.evictCall = CEv.freeEv off true →
    ∃ ok, CEv.wbE off PAGE_SIZE ok ∈ evs.take i

/-- The data a chain walk inspects: liveness, offset and successor. -/
def walkData (st : cache_t) (j : Nat) : Option (Nat × Option Nat) :=
  (readE st j).map (fun e => (e.offset, e.next))

/-- The fragment of the invariant that survives `cache_destroy`'s corrupted
bucket walks: address-space bound and generation-stamp bound. -/
def WeakInv (st : cache_t) : Prop :=
  (∀ i, st.nid ≤ i → st.heap i = none) ∧
  (∀ i e, st.heap i = some e → e.epoch ≤ st.epoch)

def opsW : List COp := [COp.getO tEnv 0 false]

def stW : cache_t := (runOps cache_init opsW).getD cache_init

def c5full : cache_t × Option Nat × List CEv :=
  (cache_get stFull tEnv offFull false).getD (cache_init, none, [])

def c7res : cache_t × Option Nat × List CEv :=
  (cache_get c7pre tEnvErr offB true).getD (cache_init, none, [])

def qs0 : Fin CORES → List WorkUnit := fun _ => []

def c8res : Nat × (Fin CORES → List WorkUnit) := scheduler_get_migrated_task qsW 0 0

def c10res : Nat × (Fin CORES → List WorkUnit) := scheduler_get_migrated_task qsW 0 0

/-! # Theorems -/

theorem InvC_cache_init : InvC cache_init := by
  constructor <;> intros <;> first
    | rfl
    | trivial
    | (exact Option.noConfusion (by assumption))
    | simp [cache_init, curOpt] at *

/-- `Inv0` holds of the freshly initialised cache. -/
theorem Inv0_cache_init : Inv0 cache_init := ⟨InvC_cache_init, rfl⟩

/-! # Theorems -/

/-- Claim C1: refuted on the code.  After `get(offA)`, `get(offB)` (both
offsets hash to bucket 753) and a second `get(offA)`, the page for `offA`
(entry id 0) is still in the cache — live, and appearing exactly once in
the LRU list — yet walking its bucket `hash(offA)` finds it zero times
(H1 requires exactly once), so hash-table membership and LRU membership
also disagree (L1).  The hit's LRU promotion unsplices the entry from the
single `next`/`prev` chain that simultaneously serves as the bucket's
collision chain. -/
theorem C1_conflated_chain_breaks_H1_L1 :
    (runOps cache_init C1ops).map (fun st =>
      ((st.heap 0).map (fun e => (e.live, e.offset)),
       (bucketIds st (hash_func offA)).map (fun l => l.count 0),
       (lruIds st).map (fun l => l.count 0))) =
    some (some (true, offA), some 0, some 1) := by rfl

/-- Claim C2: refuted on the code.  With the backing file truncated to
5000 bytes, `get(4096)` sees `pread` return 904 bytes; the call indeed
does not fail (it returns the buffer), and bytes `[0, 904)` are the file
bytes — but bytes `[904, 4096)` are the uninitialized `malloc` contents
(here the byte 171), not zeros, and no warning is logged (the event
trace is empty). -/
theorem C2_partial_read_left_uninitialized :
    (cache_get cache_init tEnvPartial 4096 false).map (fun r =>
      ((r.1.heap 0).map (fun e => (e.data 0, e.data 903, e.data 904, e.data 4095)),
       r.2.1, r.2.2)) =
    some (some (1, 1, 171, 171), some 0, []) := by rfl

/-- The code's ratio test `C_prev / 4096 > 0.5` in integers. -/
theorem codeC3_level_eq (c : Nat) :
    codeC3_level c = if 2048 < c then COMPRESSION_MAX_LVL else COMPRESSION_MIN_LVL := by
  have h : ((c : ℚ) / (PAGE_SIZE : ℚ) > COMPRESSION_ADAPTIVE_THRESHOLD) ↔ 2048 < c := by
    rw [COMPRESSION_ADAPTIVE_THRESHOLD, PAGE_SIZE, BLOCK_SIZE, gt_iff_lt]
    push_cast
    rw [lt_div_iff₀ (by norm_num : (0 : ℚ) < 4096)]
    norm_num
  rw [codeC3_level, if_congr h rfl rfl]

/-- The claim's ratio test `C_prev / 4096 > 0.8` in integers. -/
theorem claimC3_level_eq (c : Nat) :
    claimC3_level c = if 3276 < c then COMPRESSION_MAX_LVL else COMPRESSION_MIN_LVL := by
  have h : ((c : ℚ) / (PAGE_SIZE : ℚ) > 8/10) ↔ 3276 < c := by
    rw [PAGE_SIZE, BLOCK_SIZE, gt_iff_lt]
    push_cast
    rw [lt_div_iff₀ (by norm_num : (0 : ℚ) < 4096)]
    constructor
    · intro hlt
      by_contra hc
      push_neg at hc
      have : (c : ℚ) ≤ 3276 := by exact_mod_cast hc
      nlinarith
    · intro hlt
      have : (3277 : ℚ) ≤ (c : ℚ) := by exact_mod_cast hlt
      nlinarith
  rw [claimC3_level, if_congr h rfl rfl]

/-- `determine_compression_level` at `original_size = BLOCK_SIZE` is the
ratio rule with the config.h threshold `0.5`. -/
theorem determine_level_at_block : ∀ last,
    determine_compression_level BLOCK_SIZE last = codeC3_level last := by
  intro last
  simp only [determine_compression_level, codeC3_level, PAGE_SIZE]
  norm_num [BLOCK_SIZE]

/-- The level list of the worker loop, pointwise. -/
theorem workerLevels_getD : ∀ (outs : List Int) (last n : Nat), n < outs.length →
    (workerLevels last outs).getD n 0 = codeC3_level (cprevAt last outs n) := by
  intro outs
  induction outs with
  | nil => intro last n h; simp at h
  | cons cs rest ih =>
    intro last n h
    cases n with
    | zero => simpa [workerLevels, cprevAt] using determine_level_at_block last
    | succ n =>
      have h' : n < rest.length := by simpa using h
      simpa [workerLevels, cprevAt] using ih (if 0 < cs then cs.toNat else last) n h'

/-- Claim C3, corrected: the adaptive level of each worker iteration is
`COMPRESSION_MAX_LVL` iff `C_prev / PAGE_SIZE > COMPRESSION_ADAPTIVE_THRESHOLD
= 0.5` (src/config.h), not `0.8` as the spec sentence says; `C_prev` starts
at `PAGE_SIZE`, so the first iteration uses the MAX level. -/
theorem C3_adaptive_level_uses_half_threshold :
    (∀ outs (n : Nat), n < outs.length →
      (core_run_levels outs).getD n 0 = codeC3_level (cprevAt BLOCK_SIZE outs n)) ∧
    (∀ outs, cprevAt BLOCK_SIZE outs 0 = PAGE_SIZE) ∧
    (∀ outs, outs ≠ [] → (core_run_levels outs).getD 0 0 = COMPRESSION_MAX_LVL) := by
  refine ⟨fun outs n h => workerLevels_getD outs BLOCK_SIZE n h,
          fun outs => by cases outs <;> rfl, ?_⟩
  intro outs hne
  cases outs with
  | nil => exact absurd rfl hne
  | cons cs rest =>
    have h := workerLevels_getD (cs :: rest) BLOCK_SIZE 0 (by simp)
    rw [core_run_levels, h]
    show codeC3_level BLOCK_SIZE = COMPRESSION_MAX_LVL
    rw [codeC3_level_eq]
    decide

/-- Claim C3 counterexample: after a successful compression to 2868 bytes
(`2868 / 4096 ≈ 0.70 ≤ 0.8`), the claim mandates `COMPRESSION_MIN_LVL`
for the next page, but the code (threshold `0.5`) picks
`COMPRESSION_MAX_LVL`. -/
theorem C3_counterexample_threshold :
    core_run_levels [2868, 100] = [COMPRESSION_MAX_LVL, COMPRESSION_MAX_LVL] ∧
    claimC3_level 2868 = COMPRESSION_MIN_LVL ∧
    COMPRESSION_MIN_LVL ≠ COMPRESSION_MAX_LVL := by
  refine ⟨?_, ?_, by decide⟩
  · simp only [core_run_levels, workerLevels, determine_level_at_block, codeC3_level_eq]
    norm_num [BLOCK_SIZE, COMPRESSION_MAX_LVL, COMPRESSION_MIN_LVL]
  · rw [claimC3_level_eq]
    decide

/-- Claim C3 witness: the corrected rule applied at the counterexample
trace: iteration 1 of outcomes `[2868, 100]` uses the level the `0.5`
threshold dictates for `C_prev = 2868`, namely `COMPRESSION_MAX_LVL`. -/
theorem C3_witness :
    (core_run_levels [2868, 100]).getD 1 0 = codeC3_level (cprevAt BLOCK_SIZE [2868, 100] 1) ∧
    (core_run_levels [2868, 100]).getD 0 0 = COMPRESSION_MAX_LVL :=
  ⟨C3_adaptive_level_uses_half_threshold.1 [2868, 100] 1 (by decide),
   C3_adaptive_level_uses_half_threshold.2.2 [2868, 100] (by decide)⟩

/-- Claim C4: refuted on the code.  `core_run` gives every worker its own
stack-local cache.  After worker 0 loads offset 0 (its cache's
`entry_count` becomes 1), worker 1's cache is still empty
(`entry_count = 0`), and worker 1's subsequent `get(0)` is a miss, not a
hit: it allocates entry 0 of its own cache and raises its own
`entry_count` from 0 to 1. -/
theorem C4_counterexample_not_shared :
    (worker_cache_get cores_init 0 tEnv 0 true).map
        (fun r => ((r.1.caches 0).entry_count, (r.1.caches 1).entry_count)) =
      some (1, 0) ∧
    ((worker_cache_get cores_init 0 tEnv 0 true).bind
        (fun r => worker_cache_get r.1 1 tEnv 0 true)).map
        (fun r => ((r.1.caches 0).entry_count, (r.1.caches 1).entry_count, r.2.1)) =
      some (1, 1, some 0) := by
  exact ⟨rfl, rfl⟩

/-- Claim C4, corrected: the caches are per-worker, not shared.  A cache
operation by worker `w` leaves every other worker's cache untouched (so a
page loaded by worker `i` can never be a hit for worker `j ≠ i`). -/
theorem C4_per_worker_cache_frame :
    ∀ cs w env off wr out, worker_cache_get cs w env off wr = some out →
      ∀ j, j ≠ w → out.1.caches j = cs.caches j := by
  intro cs w env off wr out h j hj
  unfold worker_cache_get at h
  rcases Option.map_eq_some'.mp h with ⟨r, _, hout⟩
  subst hout
  simp [hj]

/-- Claim C4 witness: worker 0's load of offset 0 leaves worker 1's cache
exactly as it was. -/
theorem C4_witness :
    ((worker_cache_get cores_init 0 tEnv 0 true).getD (cores_init, none, [])).1.caches 1 =
      cores_init.caches 1 :=
  C4_per_worker_cache_frame cores_init 0 tEnv 0 true
    ((worker_cache_get cores_init 0 tEnv 0 true).getD (cores_init, none, [])) rfl 1 (by decide)

/-- Claim C9: `cache_to_ring` either copies the whole page at the cursor
and advances the cursor by `PAGE_SIZE` modulo `RING_SIZE` (when the space
up to `RING_SIZE` suffices), or drops the write and logs an overflow;
bytes outside `[cursor, cursor + PAGE_SIZE)` are untouched, so a wrap
never splits a page across the buffer boundary. -/
theorem C9_ring_append_no_split :
    ∀ st data,
      (st.ring_pos + PAGE_SIZE ≤ RING_SIZE →
        (cache_to_ring st data).2 = false ∧
        (cache_to_ring st data).1.ring_pos = (st.ring_pos + PAGE_SIZE) % RING_SIZE ∧
        (∀ k, k < PAGE_SIZE → (cache_to_ring st data).1.ring_buffer (st.ring_pos + k) = data k) ∧
        (∀ i, i < st.ring_pos ∨ st.ring_pos + PAGE_SIZE ≤ i →
          (cache_to_ring st data).1.ring_buffer i = st.ring_buffer i)) ∧
      (RING_SIZE < st.ring_pos + PAGE_SIZE → cache_to_ring st data = (st, true)) := by
  intro st data
  constructor
  · intro hfits
    have hfits' : st.ring_pos + BLOCK_SIZE ≤ RING_SIZE := hfits
    have hres : cache_to_ring st data =
        ({ ring_pos := (st.ring_pos + BLOCK_SIZE) % RING_SIZE
           ring_buffer := fun i =>
             if st.ring_pos ≤ i ∧ i < st.ring_pos + BLOCK_SIZE then data (i - st.ring_pos)
             else st.ring_buffer i }, false) := by
      unfold cache_to_ring; rw [if_pos hfits']
    rw [hres]
    refine ⟨rfl, rfl, ?_, ?_⟩
    · intro k hk
      have hk' : k < BLOCK_SIZE := hk
      show (if st.ring_pos ≤ st.ring_pos + k ∧ st.ring_pos + k < st.ring_pos + BLOCK_SIZE
            then data (st.ring_pos + k - st.ring_pos) else st.ring_buffer (st.ring_pos + k)) = data k
      rw [if_pos ⟨Nat.le_add_right _ _, by omega⟩, Nat.add_sub_cancel_left]
    · intro i hi
      have hno : ¬ (st.ring_pos ≤ i ∧ i < st.ring_pos + BLOCK_SIZE) := by
        simp only [PAGE_SIZE] at hi; omega
      show (if st.ring_pos ≤ i ∧ i < st.ring_pos + BLOCK_SIZE
            then data (i - st.ring_pos) else st.ring_buffer i) = st.ring_buffer i
      rw [if_neg hno]
  · intro hover
    have hno : ¬ (st.ring_pos + BLOCK_SIZE ≤ RING_SIZE) := by
      simp only [PAGE_SIZE] at hover; omega
    unfold cache_to_ring; rw [if_neg hno]

/-- Claim C9 witness: a fresh ring accepts the page (cursor 0 → 4096, no
overflow); a cursor at `RING_SIZE - 1` drops the page and logs the
overflow. -/
theorem C9_witness :
    (cache_to_ring (ring_cache_init (fun _ => 0)) (fun _ => 5)).2 = false ∧
    (cache_to_ring (ring_cache_init (fun _ => 0)) (fun _ => 5)).1.ring_buffer 17 = 5 ∧
    cache_to_ring { ring_pos := RING_SIZE - 1, ring_buffer := fun _ => 0 } (fun _ => 5) =
      ({ ring_pos := RING_SIZE - 1, ring_buffer := fun _ => 0 }, true) := by
  refine ⟨((C9_ring_append_no_split (ring_cache_init (fun _ => 0)) (fun _ => 5)).1
            (by decide)).1, ?_, ?_⟩
  · have h := ((C9_ring_append_no_split (ring_cache_init (fun _ => 0)) (fun _ => 5)).1
      (by decide)).2.2.1 17 (by decide)
    simpa using h
  · exact (C9_ring_append_no_split
      { ring_pos := RING_SIZE - 1, ring_buffer := fun _ => 0 } (fun _ => 5)).2 (by decide)

/-! ### Inversion and congruence helpers for the cache heap -/

theorem writeE_eq {st : cache_t} {i : Nat} {f : cache_entry → cache_entry} {st' : cache_t}
    (h : writeE st i f = some st') :
    ∃ e, readE st i = some e ∧
      st' = { st with heap := fun j => if j = i then some (f e) else st.heap j } := by
  unfold writeE at h
  cases hr : readE st i with
  | none => rw [hr] at h; exact Option.noConfusion h
  | some e => rw [hr] at h; exact ⟨e, rfl, (Option.some.inj h).symm⟩

theorem freeE_eq {st : cache_t} {i : Nat} {st' : cache_t}
    (h : freeE st i = some st') :
    ∃ e, readE st i = some e ∧
      st' = { st with heap := fun j => if j = i then some { e with live := false } else st.heap j } := by
  unfold freeE at h
  cases hr : readE st i with
  | none => rw [hr] at h; exact Option.noConfusion h
  | some e => rw [hr] at h; exact ⟨e, rfl, (Option.some.inj h).symm⟩

theorem readE_of_heap {st : cache_t} {i : Nat} {e : cache_entry}
    (h : st.heap i = some e) (hl : e.live = true) : readE st i = some e := by
  simp [readE, h, hl]

theorem chainIds_congr {st' st : cache_t} (hw : ∀ j, walkData st' j = walkData st j) :
    ∀ p fuel, chainIds st' p fuel = chainIds st p fuel := by
  intro p fuel
  induction fuel generalizing p with
  | zero => cases p <;> rfl
  | succ n ih =>
    cases p with
    | none => rfl
    | some i =>
      have h := hw i
      unfold walkData at h
      cases hr : readE st i with
      | none =>
        rw [hr] at h; simp only [Option.map_none'] at h
        have h2 : readE st' i = none := by
          cases hx : readE st' i with
          | none => rfl
          | some e => rw [hx] at h; simp at h
        simp only [chainIds, h2, hr]
      | some e =>
        rw [hr] at h
        cases hx : readE st' i with
        | none => rw [hx] at h; simp at h
        | some e' =>
          rw [hx] at h
          simp only [Option.map_some', Option.some.injEq, Prod.mk.injEq] at h
          simp only [chainIds, hx, hr, h.1, h.2, ih]

theorem chainFind_congr {st' st : cache_t} (hw : ∀ j, walkData st' j = walkData st j)
    (off : Nat) : ∀ p fuel, chainFind st' off p fuel = chainFind st off p fuel := by
  intro p fuel
  induction fuel generalizing p with
  | zero => cases p <;> rfl
  | succ n ih =>
    cases p with
    | none => rfl
    | some i =>
      have h := hw i
      unfold walkData at h
      cases hr : readE st i with
      | none =>
        rw [hr] at h; simp only [Option.map_none'] at h
        have h2 : readE st' i = none := by
          cases hx : readE st' i with
          | none => rfl
          | some e => rw [hx] at h; simp at h
        simp only [chainFind, h2, hr]
      | some e =>
        rw [hr] at h
        cases hx : readE st' i with
        | none => rw [hx] at h; simp at h
        | some e' =>
          rw [hx] at h
          simp only [Option.map_some', Option.some.injEq, Prod.mk.injEq] at h
          simp only [chainFind, hx, hr, h.1, h.2, ih]

/-- Every id on a chain walk is allocated. -/
theorem chainIds_mem_allocated {st : cache_t} :
    ∀ p fuel l, chainIds st p fuel = some l → ∀ k ∈ l, ∃ e, st.heap k = some e := by
  intro p fuel
  induction fuel generalizing p with
  | zero =>
    intro l hl k hk
    cases p with
    | none =>
      simp only [chainIds] at hl
      obtain rfl := (Option.some.inj hl).symm
      simp at hk
    | some i => exact Option.noConfusion hl
  | succ n ih =>
    intro l hl k hk
    cases p with
    | none =>
      simp only [chainIds] at hl
      obtain rfl := (Option.some.inj hl).symm
      simp at hk
    | some i =>
      unfold chainIds at hl
      cases hr : readE st i with
      | none => rw [hr] at hl; exact Option.noConfusion hl
      | some e =>
        rw [hr] at hl
        rcases Option.map_eq_some'.mp hl with ⟨l', hl', rfl⟩
        rcases List.mem_cons.mp hk with rfl | hk'
        · unfold readE at hr
          cases hh : st.heap k with
          | none => rw [hh] at hr; exact Option.noConfusion hr
          | some e0 => exact ⟨e0, rfl⟩
        · exact ih e.next l' hl' k hk'

/-- Inversion of a completed `cache_evict`: either the LRU was empty (no-op,
no events), or the call performed the full eviction sequence; all
intermediate states and entry snapshots are recovered. -/
theorem cache_evict_inv {st : cache_t} {ok : Bool} {st' : cache_t} {evs : List CEv}
    (h : cache_evict st ok = some (st', evs)) :
    (st.lru_tail = none ∧ st' = st ∧ evs = []) ∨
    ∃ t e st1 e1 st2 e2 e3 st4 e4 st5,
      st.lru_tail = some t ∧
      readE st t = some e ∧
      optWrite st e.prev (fun pe => { pe with next := e.next }) = some st1 ∧
      readE st1 t = some e1 ∧
      optWrite st1 e1.next (fun ne => { ne with prev := e1.prev }) = some st2 ∧
      readE st2 t = some e2 ∧
      (let st3 := if st2.hash (hash_func e.offset) = some t then
           { st2 with hash := fun b => if b = hash_func e.offset then e2.next else st2.hash b }
         else st2
       readE st3 t = some e3 ∧
       (if e3.dirty then writeE st3 t (fun ee => { ee with dirty := false }) else some st3) = some st4 ∧
       readE st4 t = some e4 ∧ freeE st4 t = some st5 ∧
       optWrite { st5 with entry_count := szDec st5.entry_count, lru_tail := e4.prev }
         e4.prev (fun ue => { ue with next := none }) = some st' ∧
       evs = (if e3.dirty then
                CEv.wbE e3.offset PAGE_SIZE ok :: (if ok then [] else [CEv.logE "ERROR"])
              else []) ++ [CEv.freeEv e4.offset e3.dirty]) := by
  unfold cache_evict at h
  split at h
  case h_1 heq =>
    left
    have h2 := Option.some.inj h
    exact ⟨heq, congrArg Prod.fst h2 |>.symm, congrArg Prod.snd h2 |>.symm⟩
  case h_2 t heq =>
    right
    simp only [Option.bind_eq_some, Option.some.injEq] at h
    obtain ⟨e, he, st1, h1, e1, he1, st2, h2, e2, he2, e3, he3, wbres, hwb, e4, he4, st5, h5, st7, h7, hpair⟩ := h
    rw [Prod.mk.injEq] at hpair
    obtain ⟨hp1, hp2⟩ := hpair
    refine ⟨t, e, st1, e1, st2, e2, e3, ?_⟩
    split at hwb
    case isTrue hd =>
      simp only [Option.bind_eq_some, Option.some.injEq] at hwb
      obtain ⟨stw, hw, hwr⟩ := hwb
      subst hwr
      refine ⟨stw, e4, st5, heq, he, h1, he1, h2, he2, he3, ?_, he4, h5, ?_, ?_⟩
      · rw [if_pos hd]; exact hw
      · rw [← hp1]; exact h7
      · rw [← hp2, if_pos hd]; rfl
    case isFalse hd =>
      obtain hwr := (Option.some.inj hwb).symm
      subst hwr
      refine ⟨_, e4, st5, heq, he, h1, he1, h2, he2, he3, ?_, he4, h5, ?_, ?_⟩
      · rw [if_neg hd]
      · rw [← hp1]; exact h7
      · rw [← hp2, if_neg hd]

theorem cache_evict_recon {st : cache_t} (ok : Bool)
    {t : Nat} {e e1 e2 e3 e4 : cache_entry} {st1 st2 st4 st5 st' : cache_t}
    (heq : st.lru_tail = some t)
    (he : readE st t = some e)
    (h1 : optWrite st e.prev (fun pe => { pe with next := e.next }) = some st1)
    (he1 : readE st1 t = some e1)
    (h2 : optWrite st1 e1.next (fun ne => { ne with prev := e1.prev }) = some st2)
    (he2 : readE st2 t = some e2)
    (he3 : readE (if st2.hash (hash_func e.offset) = some t then
           { st2 with hash := fun b => if b = hash_func e.offset then e2.next else st2.hash b }
         else st2) t = some e3)
    (h34 : (if e3.dirty then
        writeE (if st2.hash (hash_func e.offset) = some t then
           { st2 with hash := fun b => if b = hash_func e.offset then e2.next else st2.hash b }
         else st2) t (fun ee => { ee with dirty := false })
      else some (if st2.hash (hash_func e.offset) = some t then
           { st2 with hash := fun b => if b = hash_func e.offset then e2.next else st2.hash b }
         else st2)) = some st4)
    (he4 : readE st4 t = some e4)
    (h5 : freeE st4 t = some st5)
    (h7 : optWrite { st5 with entry_count := szDec st5.entry_count, lru_tail := e4.prev }
         e4.prev (fun ue => { ue with next := none }) = some st') :
    cache_evict st ok = some (st',
      (if e3.dirty then
         CEv.wbE e3.offset PAGE_SIZE ok :: (if ok then [] else [CEv.logE "ERROR"])
       else []) ++ [CEv.freeEv e4.offset e3.dirty]) := by
  unfold cache_evict
  split
  next heq2 => rw [heq2] at heq; exact Option.noConfusion heq
  next t2 heq2 =>
  rw [heq2] at heq
  obtain rfl := Option.some.inj heq
  rw [he]
  simp only [Option.some_bind]
  rw [h1]
  simp only [Option.some_bind]
  rw [he1]
  simp only [Option.some_bind]
  rw [h2]
  simp only [Option.some_bind]
  rw [he2]
  simp only [Option.some_bind]
  rw [he3]
  simp only [Option.some_bind]
  cases hd : e3.dirty with
  | true =>
    rw [if_pos hd] at h34
    rw [if_pos rfl]
    rw [h34]
    simp only [Option.some_bind]
    rw [he4]
    simp only [Option.some_bind]
    rw [h5]
    simp only [Option.some_bind]
    rw [h7]
    simp only [Option.some_bind]
    rfl
  | false =>
    rw [if_neg (by simp [hd])] at h34
    rw [if_neg (by simp [hd])]
    rw [Option.some.inj h34]
    simp only [Option.some_bind]
    rw [he4]
    simp only [Option.some_bind]
    rw [h5]
    simp only [Option.some_bind]
    rw [h7]
    simp only [Option.some_bind]
    rfl

theorem readE_live {st : cache_t} {i : Nat} {e : cache_entry}
    (h : readE st i = some e) : e.live = true ∧ st.heap i = some e := by
  rcases hh : st.heap i with _ | e0
  · simp only [readE, hh] at h
    exact Option.noConfusion h
  · simp only [readE, hh] at h
    by_cases hl : e0.live = true
    · rw [if_pos hl] at h
      obtain rfl := Option.some.inj h
      exact ⟨hl, rfl⟩
    · rw [if_neg hl] at h; exact Option.noConfusion h

theorem evict_e4_eq {st3 st4 : cache_t} {t : Nat} {e3 e4 : cache_entry}
    (he3 : readE st3 t = some e3)
    (h34 : (if e3.dirty then writeE st3 t (fun ee => { ee with dirty := false })
            else some st3) = some st4)
    (he4 : readE st4 t = some e4) :
    e4.offset = e3.offset ∧ e4.prev = e3.prev := by
  by_cases hd : e3.dirty = true
  · rw [if_pos hd] at h34
    obtain ⟨er, her, rfl⟩ := writeE_eq h34
    rw [her] at he3
    obtain rfl := (Option.some.inj he3).symm
    have hlive := (readE_live her).1
    have hre : readE { st3 with
        heap := fun j => if j = t then some { e3 with dirty := false } else st3.heap j } t
        = some { e3 with dirty := false } := by
      unfold readE
      simp [hlive]
    rw [hre] at he4
    obtain rfl := (Option.some.inj he4).symm
    exact ⟨rfl, rfl⟩
  · rw [if_neg hd] at h34
    obtain rfl := Option.some.inj h34
    rw [he3] at he4
    obtain rfl := (Option.some.inj he4).symm
    exact ⟨rfl, rfl⟩

theorem cache_evict_ok_irrel {st : cache_t} {ok ok' : Bool} {st' : cache_t} {evs : List CEv}
    (h : cache_evict st ok = some (st', evs)) :
    ∃ evs', cache_evict st ok' = some (st', evs') := by
  rcases cache_evict_inv h with ⟨htail, rfl, rfl⟩ | ⟨t, e, st1, e1, st2, e2, e3, st4, e4, st5,
      heq, he, h1, he1, h2, he2, he3, h34, he4, h5, h7, hevs⟩
  · exact ⟨[], by unfold cache_evict; rw [htail]⟩
  · exact ⟨_, cache_evict_recon ok' heq he h1 he1 h2 he2 he3 h34 he4 h5 h7⟩

theorem dirtyFreeSafe_evict_evs {off : Nat} {d ok : Bool} :
    DirtyFreeSafe ((if d then
        CEv.wbE off PAGE_SIZE ok :: (if ok then [] else [CEv.logE "ERROR"])
      else []) ++ [CEv.freeEv off d]) := by
  intro i off' hi hget
  cases d with
  | false =>
    simp only [Bool.false_eq_true, if_false, List.nil_append, List.length_cons,
      List.length_nil] at hi hget
    match i, hi with
    | 0, _ => simp [List.getD] at hget
  | true =>
    cases ok with
    | true =>
      simp only [if_true] at hi hget ⊢
      simp only [List.length_append, List.length_cons, List.length_nil] at hi
      match i, hi with
      | 0, _ => simp [List.getD] at hget
      | 1, _ =>
        simp [List.getD] at hget
        subst hget
        exact ⟨true, by simp [List.take]⟩
    | false =>
      simp only [if_true, if_false] at hi hget ⊢
      simp only [List.length_append, List.length_cons, List.length_nil] at hi
      match i, hi with
      | 0, _ => simp [List.getD] at hget
      | 1, _ => simp [List.getD] at hget
      | 2, _ =>
        simp [List.getD] at hget
        subst hget
        exact ⟨false, by simp [List.take]⟩

theorem dirtyFreeSafe_nil : DirtyFreeSafe [] := by
  intro i off hi
  simp at hi

theorem dirtyFreeSafe_single_log {s : String} : DirtyFreeSafe [CEv.logE s] := by
  intro i off hi hget
  match i, hi with
  | 0, _ => simp [List.getD] at hget

theorem dirtyFreeSafe_append {a b : List CEv} (ha : DirtyFreeSafe a) (hb : DirtyFreeSafe b) :
    DirtyFreeSafe (a ++ b) := by
  intro i off hi hget
  rcases Nat.lt_or_ge i a.length with h | h
  · have hg : (a ++ b).getD i CEv.evictCall = a.getD i CEv.evictCall :=
      List.getD_append a b _ i h
    obtain ⟨ok, hok⟩ := ha i off h (hg ▸ hget)
    refine ⟨ok, ?_⟩
    rw [List.take_append_eq_append_take]
    exact List.mem_append_left _ hok
  · have hg : (a ++ b).getD i CEv.evictCall = b.getD (i - a.length) CEv.evictCall :=
      List.getD_append_right a b _ i h
    have hi' : i - a.length < b.length := by
      rw [List.length_append] at hi; omega
    obtain ⟨ok, hok⟩ := hb (i - a.length) off hi' (hg ▸ hget)
    refine ⟨ok, ?_⟩
    rw [List.take_append_eq_append_take]
    exact List.mem_append_right _ hok

theorem destroyChain_safe (f : Nat → Bool) :
    ∀ fuel (st : cache_t) (p : Option Nat) (st' : cache_t) (evs : List CEv),
      destroyChain f st p fuel = some (st', evs) → DirtyFreeSafe evs := by
  intro fuel
  induction fuel with
  | zero =>
    intro st p st' evs h
    cases p with
    | none =>
      obtain h2 := Option.some.inj h
      rw [Prod.mk.injEq] at h2
      rw [← h2.2]
      exact dirtyFreeSafe_nil
    | some i => exact Option.noConfusion h
  | succ n ih =>
    intro st p st' evs h
    cases p with
    | none =>
      obtain h2 := Option.some.inj h
      rw [Prod.mk.injEq] at h2
      rw [← h2.2]
      exact dirtyFreeSafe_nil
    | some i =>
      unfold destroyChain at h
      simp only [Option.bind_eq_some, Option.some.injEq] at h
      obtain ⟨e, he, wbres, hwb, st2, h52, rest, hrest, hpair⟩ := h
      rw [Prod.mk.injEq] at hpair
      obtain ⟨hp1, hp2⟩ := hpair
      rw [← hp2]
      have hsafe1 : DirtyFreeSafe (wbres.2 ++ [CEv.freeEv e.offset e.dirty]) := by
        split at hwb
        case isTrue hd =>
          simp only [Option.bind_eq_some, Option.some.injEq] at hwb
          obtain ⟨stw, hw, hwr⟩ := hwb
          rw [← hwr]
          have := @dirtyFreeSafe_evict_evs e.offset e.dirty (f e.offset)
          rw [if_pos hd] at this
          exact this
        case isFalse hd =>
          rw [← Option.some.inj hwb]
          have := @dirtyFreeSafe_evict_evs e.offset e.dirty (f e.offset)
          rw [if_neg hd] at this
          exact this
      exact dirtyFreeSafe_append hsafe1 (ih st2 e.next rest.1 rest.2 (by rw [hrest]))

theorem destroyChain_ok_irrel (f g : Nat → Bool) :
    ∀ fuel (st : cache_t) (p : Option Nat) (st' : cache_t) (evs : List CEv),
      destroyChain f st p fuel = some (st', evs) →
      ∃ evs', destroyChain g st p fuel = some (st', evs') := by
  intro fuel
  induction fuel with
  | zero =>
    intro st p st' evs h
    cases p with
    | none =>
      obtain h2 := Option.some.inj h
      rw [Prod.mk.injEq] at h2
      exact ⟨[], by rw [destroyChain, h2.1]⟩
    | some i => exact Option.noConfusion h
  | succ n ih =>
    intro st p st' evs h
    cases p with
    | none =>
      obtain h2 := Option.some.inj h
      rw [Prod.mk.injEq] at h2
      exact ⟨[], by rw [destroyChain, h2.1]⟩
    | some i =>
      unfold destroyChain at h
      simp only [Option.bind_eq_some, Option.some.injEq] at h
      obtain ⟨e, he, wbres, hwb, st2, h52, rest, hrest, hpair⟩ := h
      rw [Prod.mk.injEq] at hpair
      obtain ⟨hp1, hp2⟩ := hpair
      obtain ⟨evs', hrec⟩ := ih st2 e.next rest.1 rest.2 (by rw [hrest])
      have hw1 : ∃ wb', (if e.dirty then
          Option.bind (writeE st i (fun ee => { ee with dirty := false })) fun stw =>
          some (stw, [CEv.wbE e.offset PAGE_SIZE (g e.offset)] ++
                      if g e.offset then [] else [CEv.logE "ERROR"])
        else some (st, ([] : List CEv))) = some wb' ∧ wb'.1 = wbres.1 := by
        split at hwb
        case isTrue hd =>
          simp only [Option.bind_eq_some, Option.some.injEq] at hwb
          obtain ⟨stw, hwrt, hwr⟩ := hwb
          refine ⟨(stw, [CEv.wbE e.offset PAGE_SIZE (g e.offset)] ++
                      if g e.offset then [] else [CEv.logE "ERROR"]), ?_, ?_⟩
          · rw [if_pos hd]
            rw [hwrt]
            rfl
          · rw [← hwr]
        case isFalse hd =>
          refine ⟨(st, []), by rw [if_neg hd], ?_⟩
          rw [← Option.some.inj hwb]
      obtain ⟨wb', hwb', hfst⟩ := hw1
      refine ⟨wb'.2 ++ [CEv.freeEv e.offset e.dirty] ++ evs', ?_⟩
      unfold destroyChain
      rw [he]
      simp only [Option.some_bind]
      rw [hwb']
      simp only [Option.some_bind]
      rw [hfst, h52]
      simp only [Option.some_bind]
      rw [hrec]
      simp only [Option.some_bind]
      rw [hp1]

theorem destroyLoop_safe (f : Nat → Bool) :
    ∀ (bs : List Nat) (st : cache_t) (st' : cache_t) (evs : List CEv),
      destroyLoop f st bs = some (st', evs) → DirtyFreeSafe evs := by
  intro bs
  induction bs with
  | nil =>
    intro st st' evs h
    obtain h2 := Option.some.inj h
    rw [Prod.mk.injEq] at h2
    rw [← h2.2]
    exact dirtyFreeSafe_nil
  | cons b bs ih =>
    intro st st' evs h
    unfold destroyLoop at h
    simp only [Option.bind_eq_some, Option.some.injEq] at h
    obtain ⟨r1, h1, r2, h2, hpair⟩ := h
    rw [Prod.mk.injEq] at hpair
    rw [← hpair.2]
    exact dirtyFreeSafe_append
      (destroyChain_safe f (st.nid + 1) st (st.hash b) r1.1 r1.2 (by rw [h1]))
      (ih _ r2.1 r2.2 (by rw [h2]))

theorem destroyLoop_ok_irrel (f g : Nat → Bool) :
    ∀ (bs : List Nat) (st : cache_t) (st' : cache_t) (evs : List CEv),
      destroyLoop f st bs = some (st', evs) →
      ∃ evs', destroyLoop g st bs = some (st', evs') := by
  intro bs
  induction bs with
  | nil =>
    intro st st' evs h
    obtain h2 := Option.some.inj h
    rw [Prod.mk.injEq] at h2
    exact ⟨[], by rw [destroyLoop, h2.1]⟩
  | cons b bs ih =>
    intro st st' evs h
    unfold destroyLoop at h
    simp only [Option.bind_eq_some, Option.some.injEq] at h
    obtain ⟨r1, h1, r2, h2, hpair⟩ := h
    rw [Prod.mk.injEq] at hpair
    obtain ⟨e1', hc⟩ := destroyChain_ok_irrel f g (st.nid + 1) st (st.hash b) r1.1 r1.2 (by rw [h1])
    obtain ⟨e2', hl⟩ := ih _ r2.1 r2.2 (by rw [h2])
    refine ⟨e1' ++ e2', ?_⟩
    unfold destroyLoop
    rw [hc]
    simp only [Option.some_bind]
    rw [hl]
    simp only [Option.some_bind]
    rw [hpair.1]

theorem cache_destroy_safe {st : cache_t} {f : Nat → Bool} {st' : cache_t} {evs : List CEv}
    (h : cache_destroy st f = some (st', evs)) : DirtyFreeSafe evs := by
  unfold cache_destroy at h
  simp only [Option.bind_eq_some, Option.some.injEq] at h
  obtain ⟨r, hr, hpair⟩ := h
  rw [Prod.mk.injEq] at hpair
  rw [← hpair.2]
  exact dirtyFreeSafe_append (destroyLoop_safe f _ st r.1 r.2 (by rw [hr]))
    dirtyFreeSafe_single_log

theorem cache_destroy_ok_irrel {st : cache_t} {f g : Nat → Bool} {st' : cache_t} {evs : List CEv}
    (h : cache_destroy st f = some (st', evs)) :
    ∃ evs', cache_destroy st g = some (st', evs') := by
  unfold cache_destroy at h
  simp only [Option.bind_eq_some, Option.some.injEq] at h
  obtain ⟨r, hr, hpair⟩ := h
  rw [Prod.mk.injEq] at hpair
  obtain ⟨e', hl⟩ := destroyLoop_ok_irrel f g _ st r.1 r.2 (by rw [hr])
  refine ⟨e' ++ [CEv.logE "INFO"], ?_⟩
  unfold cache_destroy
  rw [hl]
  simp only [Option.some_bind]
  rw [hpair.1]

theorem dirtyFreeSafe_cons_evict {evs : List CEv} (h : DirtyFreeSafe evs) :
    DirtyFreeSafe (CEv.evictCall :: evs) := by
  intro i off hi hget
  match i, hi with
  | 0, _ => simp [List.getD] at hget
  | (j+1), hi =>
    have hj : j < evs.length := by simpa using hi
    have hg : (CEv.evictCall :: evs).getD (j+1) CEv.evictCall = evs.getD j CEv.evictCall := by
      simp [List.getD]
    obtain ⟨ok, hok⟩ := h j off hj (hg ▸ hget)
    refine ⟨ok, ?_⟩
    rw [List.take_succ_cons]
    exact List.mem_cons_of_mem _ hok

theorem cache_evict_safe {st : cache_t} {ok : Bool} {st' : cache_t} {evs : List CEv}
    (h : cache_evict st ok = some (st', evs)) : DirtyFreeSafe evs := by
  rcases cache_evict_inv h with ⟨htail, rfl, rfl⟩ | ⟨t, e, st1, e1, st2, e2, e3, st4, e4, st5,
      heq, he, h1, he1, h2, he2, he3, h34, he4, h5, h7, hevs⟩
  · exact dirtyFreeSafe_nil
  · rw [hevs, (evict_e4_eq he3 h34 he4).1]
    exact dirtyFreeSafe_evict_evs

theorem cache_get_safe {st : cache_t} {env : GetEnv} {off : Nat} {wr : Bool}
    {st' : cache_t} {r : Option Nat} {evs : List CEv}
    (h : cache_get st env off wr = some (st', r, evs)) : DirtyFreeSafe evs := by
  unfold cache_get at h
  split at h
  · exact Option.noConfusion h
  · rcases Option.map_eq_some'.mp h with ⟨stp, _, hpair⟩
    cases hpair
    exact dirtyFreeSafe_nil
  · split at h
    · cases Option.some.inj h
      exact dirtyFreeSafe_single_log
    · rcases Option.bind_eq_some.mp h with ⟨st2, hw2, hrest⟩
      split at hrest
      · rcases Option.bind_eq_some.mp hrest with ⟨e, he, hrest⟩
        rcases Option.bind_eq_some.mp hrest with ⟨st4, h4, hrest⟩
        rcases Option.bind_eq_some.mp hrest with ⟨st6, h6, hpair⟩
        cases Option.some.inj hpair
        exact dirtyFreeSafe_single_log
      · rcases Option.bind_eq_some.mp hrest with ⟨st4, h4, hrest⟩
        rcases Option.bind_eq_some.mp hrest with ⟨st5, h5, hrest⟩
        rcases Option.bind_eq_some.mp hrest with ⟨st6, h6, hrest2⟩
        simp only [] at hrest2
        split at hrest2 <;>
        [ (split at hrest2
           · rcases Option.bind_eq_some.mp hrest2 with ⟨rr, hrr, hpair⟩
             cases Option.some.inj hpair
             exact dirtyFreeSafe_cons_evict (cache_evict_safe (by rw [hrr]))
           · cases Option.some.inj hrest2
             exact dirtyFreeSafe_nil);
          (split at hrest2
           · rcases Option.bind_eq_some.mp hrest2 with ⟨rr, hrr, hpair⟩
             cases Option.some.inj hpair
             exact dirtyFreeSafe_cons_evict (cache_evict_safe (by rw [hrr]))
           · cases Option.some.inj hrest2
             exact dirtyFreeSafe_nil)]

/-- Claim C6 (invariant D1): whenever `cache_evict`, `cache_destroy` (or its
per-bucket chain loop), or `cache_get`'s internal eviction frees a page that
was dirty at destruction, a `pwrite` write-back attempt of `PAGE_SIZE` bytes
at the page's offset precedes the `free` in the event trace; and the
resulting state — in particular that the page is freed — is the same
whatever the write-back outcomes, i.e. write-back I/O errors are logged but
never prevent the destruction. -/
theorem C6_writeback_before_reclaim :
    (∀ st ok st' evs, cache_evict st ok = some (st', evs) →
       DirtyFreeSafe evs ∧ ∀ ok', ∃ evs', cache_evict st ok' = some (st', evs')) ∧
    (∀ st f st' evs, cache_destroy st f = some (st', evs) →
       DirtyFreeSafe evs ∧ ∀ g, ∃ evs', cache_destroy st g = some (st', evs')) ∧
    (∀ (f : Nat → Bool) fuel st p st' evs, destroyChain f st p fuel = some (st', evs) →
       DirtyFreeSafe evs ∧ ∀ g, ∃ evs', destroyChain g st p fuel = some (st', evs')) ∧
    (∀ st env off wr st' r evs, cache_get st env off wr = some (st', r, evs) →
       DirtyFreeSafe evs) := by
  refine ⟨?_, ?_, ?_, ?_⟩
  · intro st ok st' evs h
    exact ⟨cache_evict_safe h, fun ok' => cache_evict_ok_irrel h⟩
  · intro st f st' evs h
    exact ⟨cache_destroy_safe h, fun g => cache_destroy_ok_irrel h⟩
  · intro f fuel st p st' evs h
    exact ⟨destroyChain_safe f fuel st p st' evs h,
           fun g => destroyChain_ok_irrel f g fuel st p st' evs h⟩
  · intro st env off wr st' r evs h
    exact cache_get_safe h

/-- Claim C6 witness: evicting a one-entry cache holding the dirty page at
`offA` produces the trace `[pwrite offA 4096, free offA]`, which satisfies
the write-back-before-free discipline; likewise destroying the bucket chain
with a failing `pwrite` still frees the page. -/
theorem C6_witness :
    DirtyFreeSafe ((cache_evict c6st true).getD (cache_init, [])).2 ∧
    DirtyFreeSafe ((destroyChain (fun _ => false) c6st (c6st.hash 753)
      (c6st.nid + 1)).getD (cache_init, [])).2 :=
  ⟨(C6_writeback_before_reclaim.1 c6st true _ _ (by rfl)).1,
   (C6_writeback_before_reclaim.2.2.1 (fun _ => false) (c6st.nid + 1) c6st (c6st.hash 753)
      _ _ (by rfl)).1⟩

theorem countP_free {n i : Nat} (hi : i < n) {p q : Nat → Bool}
    (hpi : p i = true) (hqi : q i = false) (hoth : ∀ j, j ≠ i → p j = q j) :
    (List.range n).countP p = (List.range n).countP q + 1 := by
  induction n with
  | zero => omega
  | succ n ih =>
    rw [List.range_succ, List.countP_append, List.countP_append]
    rcases Nat.lt_or_ge i n with h | h
    · have hn : p n = q n := hoth n (by omega)
      rw [ih h]
      simp [List.countP_cons, hn]
      omega
    · have hin : i = n := by omega
      subst hin
      have hcong : (List.range i).countP p = (List.range i).countP q :=
        List.countP_congr (fun a ha => by
          have : a ≠ i := by
            have := List.mem_range.mp ha
            omega
          rw [hoth a this])
      rw [hcong]
      simp [List.countP_cons, hpi, hqi]

theorem countP_same {n : Nat} {p q : Nat → Bool} (h : ∀ j, j < n → p j = q j) :
    (List.range n).countP p = (List.range n).countP q :=
  List.countP_congr (fun a ha => by rw [h a (List.mem_range.mp ha)])

theorem epochPreserving_curOpt {st st' : cache_t} (h : epochPreserving st st') :
    ∀ X, curOpt st X → curOpt st' X := by
  intro X hc
  cases X with
  | none => trivial
  | some i =>
    obtain ⟨e, he, hep⟩ := hc
    obtain ⟨e', he', hep'⟩ := h.2 i e he
    exact ⟨e', he', by rw [hep', hep, h.1]⟩

theorem writeE_facts {st : cache_t} {i : Nat} {f : cache_entry → cache_entry} {st' : cache_t}
    (hl : ∀ e, (f e).live = e.live) (hep : ∀ e, (f e).epoch = e.epoch)
    (h : writeE st i f = some st') :
    st'.nid = st.nid ∧ st'.hash = st.hash ∧ st'.lru_head = st.lru_head ∧
    st'.lru_tail = st.lru_tail ∧ st'.entry_count = st.entry_count ∧ st'.epoch = st.epoch ∧
    epochPreserving st st' ∧ epochLive st' = epochLive st := by
  obtain ⟨e, hre, rfl⟩ := writeE_eq h
  obtain ⟨hlive, hheap⟩ := readE_live hre
  refine ⟨rfl, rfl, rfl, rfl, rfl, rfl, ⟨rfl, ?_⟩, ?_⟩
  · intro j e0 hj
    by_cases hji : j = i
    · subst hji
      rw [hj] at hheap
      obtain rfl := Option.some.inj hheap
      exact ⟨f e0, by simp, by rw [hep]⟩
    · exact ⟨e0, by simp [hji, hj], rfl⟩
  · apply countP_same
    intro j hj
    by_cases hji : j = i
    · subst hji
      simp [liveCurB, hheap, hl, hep]
    · simp only [liveCurB]
      simp only [if_neg hji]

theorem optWrite_facts {st : cache_t} {p : Option Nat} {f : cache_entry → cache_entry}
    {st' : cache_t}
    (hl : ∀ e, (f e).live = e.live) (hep : ∀ e, (f e).epoch = e.epoch)
    (h : optWrite st p f = some st') :
    st'.nid = st.nid ∧ st'.hash = st.hash ∧ st'.lru_head = st.lru_head ∧
    st'.lru_tail = st.lru_tail ∧ st'.entry_count = st.entry_count ∧ st'.epoch = st.epoch ∧
    epochPreserving st st' ∧ epochLive st' = epochLive st := by
  cases p with
  | none =>
    obtain rfl := Option.some.inj h
    exact ⟨rfl, rfl, rfl, rfl, rfl, rfl, ⟨rfl, fun j e hj => ⟨e, hj, rfl⟩⟩, rfl⟩
  | some i => exact writeE_facts hl hep h

theorem freeE_facts {st : cache_t} {i : Nat} {st' : cache_t} {e : cache_entry}
    (hre : readE st i = some e) (hcur : e.epoch = st.epoch) (hnid : i < st.nid)
    (h : freeE st i = some st') :
    st'.nid = st.nid ∧ st'.hash = st.hash ∧ st'.lru_head = st.lru_head ∧
    st'.lru_tail = st.lru_tail ∧ st'.entry_count = st.entry_count ∧ st'.epoch = st.epoch ∧
    epochPreserving st st' ∧ epochLive st = epochLive st' + 1 := by
  obtain ⟨e2, hre2, rfl⟩ := freeE_eq h
  rw [hre] at hre2
  obtain rfl := Option.some.inj hre2
  obtain ⟨hlive, hheap⟩ := readE_live hre
  refine ⟨rfl, rfl, rfl, rfl, rfl, rfl, ⟨rfl, ?_⟩, ?_⟩
  · intro j e0 hj
    by_cases hji : j = i
    · subst hji
      rw [hj] at hheap
      obtain rfl := Option.some.inj hheap
      exact ⟨{ e0 with live := false }, by simp, rfl⟩
    · exact ⟨e0, by simp [hji, hj], rfl⟩
  · apply countP_free hnid
    · simp [liveCurB, hheap, hlive, hcur]
    · simp [liveCurB]
    · intro j hji
      simp only [liveCurB]
      simp only [if_neg hji]

theorem allocE_facts {st : cache_t} {e0 : cache_entry} (hnb : ∀ i, st.nid ≤ i → st.heap i = none) :
    ((allocE st e0).1).nid = st.nid + 1 ∧
    ((allocE st e0).1).hash = st.hash ∧ ((allocE st e0).1).lru_head = st.lru_head ∧
    ((allocE st e0).1).lru_tail = st.lru_tail ∧
    ((allocE st e0).1).entry_count = st.entry_count ∧ ((allocE st e0).1).epoch = st.epoch ∧
    epochPreserving st (allocE st e0).1 ∧
    epochLive (allocE st e0).1 = epochLive st + 1 ∧
    ((allocE st e0).1).heap st.nid =
      some { e0 with live := true, epoch := st.epoch } := by
  have hnone : st.heap st.nid = none := hnb st.nid (Nat.le_refl _)
  refine ⟨rfl, rfl, rfl, rfl, rfl, rfl, ⟨rfl, ?_⟩, ?_, by simp [allocE]⟩
  · intro j e hj
    by_cases hji : j = st.nid
    · subst hji
      rw [hj] at hnone
      exact Option.noConfusion hnone
    · exact ⟨e, by simp [allocE, hji, hj], rfl⟩
  · show (List.range (st.nid + 1)).countP (liveCurB (allocE st e0).1) = _
    rw [List.range_succ, List.countP_append]
    have h1 : (List.range st.nid).countP (liveCurB (allocE st e0).1) =
        (List.range st.nid).countP (liveCurB st) := by
      apply countP_same
      intro j hj
      simp only [liveCurB, allocE]
      simp only [if_neg (by omega : ¬ j = st.nid)]
    rw [h1]
    have h2 : List.countP (liveCurB (allocE st e0).1) [st.nid] = 1 := by
      simp [liveCurB, allocE]
    rw [h2]
    rfl

theorem InvC_writeE {st : cache_t} {i : Nat} {f : cache_entry → cache_entry} {st' : cache_t}
    (inv : InvC st)
    (hl : ∀ e, (f e).live = e.live) (hep : ∀ e, (f e).epoch = e.epoch)
    (hnx : ∀ e, readE st i = some e → curOpt st (f e).next)
    (hpv : ∀ e, readE st i = some e → curOpt st (f e).prev)
    (h : writeE st i f = some st') : InvC st' := by
  have hf := writeE_facts hl hep h
  obtain ⟨e, hre, rfl⟩ := writeE_eq h
  obtain ⟨hlive, hheap⟩ := readE_live hre
  have hilt : i < st.nid := by
    by_contra hge
    rw [inv.nb i (by omega)] at hheap
    exact Option.noConfusion hheap
  have htr := epochPreserving_curOpt hf.2.2.2.2.2.2.1
  constructor
  · intro j hj
    simp only
    rw [if_neg (by omega : ¬ j = i)]
    exact inv.nb j hj
  · intro j e0 hj
    simp only at hj
    by_cases hji : j = i
    · rw [if_pos hji] at hj
      obtain rfl := (Option.some.inj hj).symm
      rw [hep]
      exact inv.epLe i e hheap
    · rw [if_neg hji] at hj
      exact inv.epLe j e0 hj
  · intro b hb
    exact htr _ (inv.buckets b hb)
  · exact htr _ inv.headC
  · exact htr _ inv.tailC
  · intro j e0 hj hlv hcur
    simp only at hj
    by_cases hji : j = i
    · rw [if_pos hji] at hj
      obtain rfl := (Option.some.inj hj).symm
      exact ⟨htr _ (hnx e hre), htr _ (hpv e hre)⟩
    · rw [if_neg hji] at hj
      obtain ⟨hn, hp⟩ := inv.fields j e0 hj hlv (by rw [← hf.2.2.2.2.2.1] at hcur; exact hcur)
      exact ⟨htr _ hn, htr _ hp⟩

theorem InvC_optWrite {st : cache_t} {p : Option Nat} {f : cache_entry → cache_entry}
    {st' : cache_t} (inv : InvC st)
    (hl : ∀ e, (f e).live = e.live) (hep : ∀ e, (f e).epoch = e.epoch)
    (hnx : ∀ i e, p = some i → readE st i = some e → curOpt st (f e).next)
    (hpv : ∀ i e, p = some i → readE st i = some e → curOpt st (f e).prev)
    (h : optWrite st p f = some st') : InvC st' := by
  cases p with
  | none => obtain rfl := Option.some.inj h; exact inv
  | some i =>
    exact InvC_writeE inv hl hep (fun e he => hnx i e rfl he) (fun e he => hpv i e rfl he) h

theorem InvC_update {st : cache_t} (inv : InvC st) {hs : Nat → Option Nat}
    {hd tl : Option Nat} {n : Nat}
    (hbs : ∀ b, b < HASH_SIZE → curOpt st (hs b)) (hhd : curOpt st hd) (htl : curOpt st tl) :
    InvC { st with hash := hs, lru_head := hd, lru_tail := tl, entry_count := n } := by
  constructor
  · exact inv.nb
  · exact inv.epLe
  · intro b hb
    exact hbs b hb
  · exact hhd
  · exact htl
  · intro j e0 hj hlv hcur
    exact inv.fields j e0 hj hlv hcur

theorem chainFind_liveCur {st : cache_t} (inv : InvC st) (off : Nat) :
    ∀ fuel (p : Option Nat) (i : Nat), curOpt st p →
      chainFind st off p fuel = some (some i) →
      ∃ e, st.heap i = some e ∧ e.live = true ∧ e.epoch = st.epoch ∧ i < st.nid := by
  intro fuel
  induction fuel with
  | zero =>
    intro p i hc h
    cases p with
    | none => simp [chainFind] at h
    | some j => exact Option.noConfusion h
  | succ n ih =>
    intro p i hc h
    cases p with
    | none => simp [chainFind] at h
    | some j =>
      unfold chainFind at h
      cases hre : readE st j with
      | none => rw [hre] at h; exact Option.noConfusion h
      | some e =>
        simp only [hre] at h
        obtain ⟨hlv, hheap⟩ := readE_live hre
        by_cases hoff : e.offset = off
        · rw [if_pos hoff] at h
          obtain rfl := Option.some.inj (Option.some.inj h)
          obtain ⟨e', he', hep'⟩ := hc
          rw [hheap] at he'
          obtain rfl := Option.some.inj he'
          have hjlt : j < st.nid := by
            by_contra hge
            rw [inv.nb j (by omega)] at hheap
            exact Option.noConfusion hheap
          exact ⟨e, hheap, hlv, hep', hjlt⟩
        · rw [if_neg hoff] at h
          obtain ⟨e', he', hep'⟩ := hc
          rw [hheap] at he'
          obtain rfl := Option.some.inj he'
          exact ih e.next i (inv.fields j e hheap hlv hep').1 h

theorem curOpt_readE {st : cache_t} {i : Nat} {e : cache_entry}
    (hc : curOpt st (some i)) (hre : readE st i = some e) : e.epoch = st.epoch := by
  obtain ⟨e', he', hep⟩ := hc
  rw [(readE_live hre).2] at he'
  obtain rfl := Option.some.inj he'
  exact hep

theorem lt_nid_of_heap {st : cache_t} (inv : InvC st) {i : Nat} {e : cache_entry}
    (h : st.heap i = some e) : i < st.nid := by
  by_contra hge
  rw [inv.nb i (by omega)] at h
  exact Option.noConfusion h

theorem epochPreserving_refl (st : cache_t) : epochPreserving st st :=
  ⟨rfl, fun j e hj => ⟨e, hj, rfl⟩⟩

theorem curOpt_congr {a b : cache_t} (hh : b.heap = a.heap) (he : b.epoch = a.epoch)
    {X : Option Nat} (h : curOpt a X) : curOpt b X := by
  cases X with
  | none => trivial
  | some i =>
    obtain ⟨e, he', hep⟩ := h
    exact ⟨e, by rw [hh]; exact he', by rw [he, hep]⟩

theorem epochLive_congr {a b : cache_t} (hh : a.heap = b.heap) (he : a.epoch = b.epoch)
    (hn : a.nid = b.nid) : epochLive a = epochLive b := by
  unfold epochLive
  rw [hn]
  apply List.countP_congr
  intro x hx
  unfold liveCurB
  rw [hh, he]

theorem szDec_pos {n : Nat} (h : 1 ≤ n) : szDec n = n - 1 := by
  unfold szDec
  rw [if_neg (by omega)]

theorem InvC_hashUpd {st : cache_t} (inv : InvC st) {hb : Nat} {v : Option Nat}
    (hv : curOpt st v) :
    InvC { st with hash := fun b => if b = hb then v else st.hash b } := by
  constructor
  · exact inv.nb
  · exact inv.epLe
  · intro b hblt
    simp only
    by_cases hbh : b = hb
    · rw [if_pos hbh]; exact hv
    · rw [if_neg hbh]; exact inv.buckets b hblt
  · exact inv.headC
  · exact inv.tailC
  · exact inv.fields

theorem InvC_freeE {st : cache_t} {i : Nat} {st' : cache_t} (inv : InvC st)
    (h : freeE st i = some st') : InvC st' := by
  obtain ⟨e, hre, rfl⟩ := freeE_eq h
  obtain ⟨hlive, hheap⟩ := readE_live hre
  have hepr : epochPreserving st { st with
      heap := fun j => if j = i then some { e with live := false } else st.heap j } := by
    refine ⟨rfl, fun j e0 hj => ?_⟩
    by_cases hji : j = i
    · subst hji
      rw [hj] at hheap
      obtain rfl := Option.some.inj hheap
      exact ⟨{ e0 with live := false }, by simp, rfl⟩
    · exact ⟨e0, by simp [hji, hj], rfl⟩
  have htr := epochPreserving_curOpt hepr
  constructor
  · intro j hj
    simp only
    by_cases hji : j = i
    · subst hji
      have hc := inv.nb j hj
      rw [hc] at hheap
      exact Option.noConfusion hheap
    · rw [if_neg hji]
      exact inv.nb j hj
  · intro j e0 hj
    simp only at hj
    by_cases hji : j = i
    · rw [if_pos hji] at hj
      obtain rfl := (Option.some.inj hj).symm
      exact inv.epLe i e hheap
    · rw [if_neg hji] at hj
      exact inv.epLe j e0 hj
  · intro b hblt
    exact htr _ (inv.buckets b hblt)
  · exact htr _ inv.headC
  · exact htr _ inv.tailC
  · intro j e0 hj hlv hcur
    simp only at hj
    by_cases hji : j = i
    · rw [if_pos hji] at hj
      obtain rfl := (Option.some.inj hj).symm
      simp at hlv
    · rw [if_neg hji] at hj
      obtain ⟨hn, hp⟩ := inv.fields j e0 hj hlv hcur
      exact ⟨htr _ hn, htr _ hp⟩

/-- A completed `cache_evict` preserves the reachable-state invariant, and
either was a no-op on an empty LRU or freed exactly one live entry. -/
theorem cache_evict_inv0 {st : cache_t} {ok : Bool} {st' : cache_t} {evs : List CEv}
    (inv : Inv0 st) (h : cache_evict st ok = some (st', evs)) :
    Inv0 st' ∧
    ((st' = st ∧ st.lru_tail = none) ∨
      (st'.entry_count + 1 = st.entry_count ∧ 1 ≤ st.entry_count)) := by
  obtain ⟨invC, hcnt⟩ := inv
  rcases cache_evict_inv h with ⟨htail, rfl, rfl⟩ | ⟨t, e, st1, e1, st2, e2, e3, st4, e4, st5,
      heq, he, h1, he1, h2, he2, he3, h34, he4, h5, h7, hevs⟩
  · exact ⟨⟨invC, hcnt⟩, Or.inl ⟨rfl, htail⟩⟩
  · have hct : curOpt st (some t) := heq ▸ invC.tailC
    have hfe := invC.fields t e (readE_live he).2 (readE_live he).1 (curOpt_readE hct he)
    have invC1 : InvC st1 := by
      refine InvC_optWrite invC (by intro e0; rfl) (by intro e0; rfl) ?_ ?_ h1
      · intro i pe hp hre
        exact hfe.1
      · intro i pe hp hre
        exact (invC.fields i pe (readE_live hre).2 (readE_live hre).1
          (curOpt_readE (hp ▸ hfe.2) hre)).2
    have facts1 := optWrite_facts (by intro e0; rfl) (by intro e0; rfl) h1
    have hct1 : curOpt st1 (some t) := epochPreserving_curOpt facts1.2.2.2.2.2.2.1 _ hct
    have hfe1 := invC1.fields t e1 (readE_live he1).2 (readE_live he1).1 (curOpt_readE hct1 he1)
    have invC2 : InvC st2 := by
      refine InvC_optWrite invC1 (by intro e0; rfl) (by intro e0; rfl) ?_ ?_ h2
      · intro i ne hp hre
        exact (invC1.fields i ne (readE_live hre).2 (readE_live hre).1
          (curOpt_readE (hp ▸ hfe1.1) hre)).1
      · intro i ne hp hre
        exact hfe1.2
    have facts2 := optWrite_facts (by intro e0; rfl) (by intro e0; rfl) h2
    have hct2 : curOpt st2 (some t) := epochPreserving_curOpt facts2.2.2.2.2.2.2.1 _ hct1
    have hfe2 := invC2.fields t e2 (readE_live he2).2 (readE_live he2).1 (curOpt_readE hct2 he2)
    generalize hst3 : (if st2.hash (hash_func e.offset) = some t then
        { st2 with hash := fun b => if b = hash_func e.offset then e2.next else st2.hash b }
      else st2) = st3 at he3 h34
    have hfc3 : InvC st3 ∧ st3.heap = st2.heap ∧ st3.epoch = st2.epoch ∧ st3.nid = st2.nid ∧
        st3.entry_count = st2.entry_count := by
      rw [← hst3]
      split
      · exact ⟨InvC_hashUpd invC2 hfe2.1, rfl, rfl, rfl, rfl⟩
      · exact ⟨invC2, rfl, rfl, rfl, rfl⟩
    obtain ⟨invC3, hh3, hep3, hn3, hc3⟩ := hfc3
    have hct3 : curOpt st3 (some t) := curOpt_congr hh3 hep3 hct2
    have hfc4 : InvC st4 ∧ epochPreserving st3 st4 ∧
        st4.entry_count = st3.entry_count ∧ epochLive st4 = epochLive st3 := by
      split at h34
      · have invC4 : InvC st4 := by
          refine InvC_writeE invC3 (by intro e0; rfl) (by intro e0; rfl) ?_ ?_ h34
          · intro ee hre
            exact (invC3.fields t ee (readE_live hre).2 (readE_live hre).1
              (curOpt_readE hct3 hre)).1
          · intro ee hre
            exact (invC3.fields t ee (readE_live hre).2 (readE_live hre).1
              (curOpt_readE hct3 hre)).2
        have f4 := writeE_facts (by intro e0; rfl) (by intro e0; rfl) h34
        exact ⟨invC4, f4.2.2.2.2.2.2.1, f4.2.2.2.2.1, f4.2.2.2.2.2.2.2⟩
      · obtain rfl := Option.some.inj h34
        exact ⟨invC3, epochPreserving_refl _, rfl, rfl⟩
    obtain ⟨invC4, ep34, hc4, hel4⟩ := hfc4
    have hct4 : curOpt st4 (some t) := epochPreserving_curOpt ep34 _ hct3
    have hce4 : e4.epoch = st4.epoch := curOpt_readE hct4 he4
    have hlt4 : t < st4.nid := lt_nid_of_heap invC4 (readE_live he4).2
    have hfe4 := invC4.fields t e4 (readE_live he4).2 (readE_live he4).1 hce4
    have invC5 : InvC st5 := InvC_freeE invC4 h5
    have facts5 := freeE_facts he4 hce4 hlt4 h5
    have htl5 : curOpt st5 e4.prev := epochPreserving_curOpt facts5.2.2.2.2.2.2.1 _ hfe4.2
    have invC6 : InvC { st5 with entry_count := szDec st5.entry_count, lru_tail := e4.prev } :=
      InvC_update invC5 invC5.buckets invC5.headC htl5
    have invCf : InvC st' := by
      refine InvC_optWrite invC6 (by intro e0; rfl) (by intro e0; rfl) ?_ ?_ h7
      · intro i ue hp hre
        trivial
      · intro i ue hp hre
        exact (invC6.fields i ue (readE_live hre).2 (readE_live hre).1
          (curOpt_readE (hp ▸ htl5) hre)).2
    have facts7 := optWrite_facts (by intro e0; rfl) (by intro e0; rfl) h7
    have hel6 : epochLive { st5 with entry_count := szDec st5.entry_count, lru_tail := e4.prev }
        = epochLive st5 := epochLive_congr rfl rfl rfl
    have el1 : epochLive st1 = epochLive st := facts1.2.2.2.2.2.2.2
    have el2 : epochLive st2 = epochLive st1 := facts2.2.2.2.2.2.2.2
    have el3 : epochLive st3 = epochLive st2 := epochLive_congr hh3 hep3 hn3
    have el5 : epochLive st4 = epochLive st5 + 1 := facts5.2.2.2.2.2.2.2
    have c1 : st1.entry_count = st.entry_count := facts1.2.2.2.2.1
    have c2 : st2.entry_count = st1.entry_count := facts2.2.2.2.2.1
    have c5 : st5.entry_count = st4.entry_count := facts5.2.2.2.2.1
    have hpos : 1 ≤ st5.entry_count := by omega
    have hdec : szDec st5.entry_count = st5.entry_count - 1 := szDec_pos hpos
    have hcf : st'.entry_count = szDec st5.entry_count := facts7.2.2.2.2.1
    have helf : epochLive st' = epochLive st5 := (facts7.2.2.2.2.2.2.2).trans hel6
    exact ⟨⟨invCf, by omega⟩, Or.inr ⟨by omega, by omega⟩⟩

/-- The hit path (`promote`) preserves the reachable-state invariant and
leaves the entry count unchanged. -/
theorem promote_inv0 {st0 : cache_t} {i : Nat} {wr : Bool} {now : Nat} {st' : cache_t}
    (inv : Inv0 st0) (hcur : curOpt st0 (some i))
    (h : promote st0 i wr now = some st') :
    Inv0 st' ∧ st'.entry_count = st0.entry_count := by
  obtain ⟨invC, hcnt⟩ := inv
  unfold promote at h
  rcases Option.bind_eq_some.mp h with ⟨st1, hw1, hrest⟩
  have invC1 : InvC st1 := by
    refine InvC_writeE invC (by intro e0; rfl) (by intro e0; rfl) ?_ ?_ hw1
    · intro ee hre
      exact (invC.fields i ee (readE_live hre).2 (readE_live hre).1
        (curOpt_readE hcur hre)).1
    · intro ee hre
      exact (invC.fields i ee (readE_live hre).2 (readE_live hre).1
        (curOpt_readE hcur hre)).2
  have facts1 := writeE_facts (by intro e0; rfl) (by intro e0; rfl) hw1
  have hel1 : epochLive st1 = epochLive st0 := facts1.2.2.2.2.2.2.2
  have hc1 : st1.entry_count = st0.entry_count := facts1.2.2.2.2.1
  have hct1 : curOpt st1 (some i) := epochPreserving_curOpt facts1.2.2.2.2.2.2.1 _ hcur
  split at hrest
  · obtain rfl := Option.some.inj hrest
    exact ⟨⟨invC1, by omega⟩, hc1⟩
  · rcases Option.bind_eq_some.mp hrest with ⟨e1, he1, hrest⟩
    rcases Option.bind_eq_some.mp hrest with ⟨st2, h2, hrest⟩
    rcases Option.bind_eq_some.mp hrest with ⟨e2, he2, hrest⟩
    rcases Option.bind_eq_some.mp hrest with ⟨st3, h3, hrest⟩
    rcases Option.bind_eq_some.mp hrest with ⟨e3, he3, hrest⟩
    have hfe1 := invC1.fields i e1 (readE_live he1).2 (readE_live he1).1 (curOpt_readE hct1 he1)
    have invC2 : InvC st2 := by
      refine InvC_optWrite invC1 (by intro e0; rfl) (by intro e0; rfl) ?_ ?_ h2
      · intro j pe hp hre
        exact hfe1.1
      · intro j pe hp hre
        exact (invC1.fields j pe (readE_live hre).2 (readE_live hre).1
          (curOpt_readE (hp ▸ hfe1.2) hre)).2
    have facts2 := optWrite_facts (by intro e0; rfl) (by intro e0; rfl) h2
    have hct2 : curOpt st2 (some i) := epochPreserving_curOpt facts2.2.2.2.2.2.2.1 _ hct1
    have hfe2 := invC2.fields i e2 (readE_live he2).2 (readE_live he2).1 (curOpt_readE hct2 he2)
    have invC3 : InvC st3 := by
      refine InvC_optWrite invC2 (by intro e0; rfl) (by intro e0; rfl) ?_ ?_ h3
      · intro j ne hp hre
        exact (invC2.fields j ne (readE_live hre).2 (readE_live hre).1
          (curOpt_readE (hp ▸ hfe2.1) hre)).1
      · intro j ne hp hre
        exact hfe2.2
    have facts3 := optWrite_facts (by intro e0; rfl) (by intro e0; rfl) h3
    have hct3 : curOpt st3 (some i) := epochPreserving_curOpt facts3.2.2.2.2.2.2.1 _ hct2
    have hfe3 := invC3.fields i e3 (readE_live he3).2 (readE_live he3).1 (curOpt_readE hct3 he3)
    simp only [] at hrest
    generalize hst4 : (if st3.lru_tail = some i then { st3 with lru_tail := e3.prev }
        else st3) = st4 at hrest
    have hfc4 : InvC st4 ∧ st4.heap = st3.heap ∧ st4.epoch = st3.epoch ∧ st4.nid = st3.nid ∧
        st4.entry_count = st3.entry_count := by
      rw [← hst4]
      split
      · exact ⟨InvC_update invC3 invC3.buckets invC3.headC hfe3.2, rfl, rfl, rfl, rfl⟩
      · exact ⟨invC3, rfl, rfl, rfl, rfl⟩
    obtain ⟨invC4, hh4, hep4, hn4, hc4⟩ := hfc4
    have hct4 : curOpt st4 (some i) := curOpt_congr hh4 hep4 hct3
    rcases Option.bind_eq_some.mp hrest with ⟨st5, h5, hrest⟩
    have invC5 : InvC st5 := by
      refine InvC_writeE invC4 (by intro e0; rfl) (by intro e0; rfl) ?_ ?_ h5
      · intro ee hre
        exact invC4.headC
      · intro ee hre
        trivial
    have facts5 := writeE_facts (by intro e0; rfl) (by intro e0; rfl) h5
    have hct5 : curOpt st5 (some i) := epochPreserving_curOpt facts5.2.2.2.2.2.2.1 _ hct4
    rcases Option.bind_eq_some.mp hrest with ⟨st6, h6, hrest⟩
    have invC6 : InvC st6 := by
      refine InvC_optWrite invC5 (by intro e0; rfl) (by intro e0; rfl) ?_ ?_ h6
      · intro j he0 hp hre
        exact (invC5.fields j he0 (readE_live hre).2 (readE_live hre).1
          (curOpt_readE (hp ▸ invC5.headC) hre)).1
      · intro j he0 hp hre
        exact hct5
    have facts6 := optWrite_facts (by intro e0; rfl) (by intro e0; rfl) h6
    have hct6 : curOpt st6 (some i) := epochPreserving_curOpt facts6.2.2.2.2.2.2.1 _ hct5
    obtain rfl := Option.some.inj hrest
    have invC7 : InvC { st6 with lru_head := some i } :=
      InvC_update invC6 invC6.buckets hct6 invC6.tailC
    have hel6 : epochLive st6 = epochLive st0 := by
      have a2 : epochLive st2 = epochLive st1 := facts2.2.2.2.2.2.2.2
      have a3 : epochLive st3 = epochLive st2 := facts3.2.2.2.2.2.2.2
      have a4 : epochLive st4 = epochLive st3 := epochLive_congr hh4 hep4 hn4
      have a5 : epochLive st5 = epochLive st4 := facts5.2.2.2.2.2.2.2
      have a6 : epochLive st6 = epochLive st5 := facts6.2.2.2.2.2.2.2
      omega
    have hc6 : st6.entry_count = st0.entry_count := by
      have b2 : st2.entry_count = st1.entry_count := facts2.2.2.2.2.1
      have b3 : st3.entry_count = st2.entry_count := facts3.2.2.2.2.1
      have b5 : st5.entry_count = st4.entry_count := facts5.2.2.2.2.1
      have b6 : st6.entry_count = st5.entry_count := facts6.2.2.2.2.1
      omega
    split
    · refine ⟨⟨InvC_update invC7 invC7.buckets invC7.headC hct6, ?_⟩, ?_⟩
      · show st6.entry_count = _
        rw [hc6, hcnt]
        exact ((epochLive_congr rfl rfl rfl).trans hel6).symm
      · exact hc6
    · refine ⟨⟨invC7, ?_⟩, ?_⟩
      · show st6.entry_count = _
        rw [hc6, hcnt]
        exact ((epochLive_congr rfl rfl rfl).trans hel6).symm
      · exact hc6

theorem hash_func_lt (off : Nat) : hash_func off < HASH_SIZE := by
  unfold hash_func
  exact Nat.mod_lt _ (by decide)

/-- `malloc` of a fresh entry whose `next`/`prev` point at current ids
preserves the structural invariant. -/
theorem InvC_allocGet {st : cache_t} (inv : InvC st) {e0 : cache_entry}
    (hnx : curOpt st e0.next) (hpv : curOpt st e0.prev) :
    InvC (allocE st e0).1 := by
  have hepr : epochPreserving st (allocE st e0).1 := (allocE_facts inv.nb).2.2.2.2.2.2.1
  have htr := epochPreserving_curOpt hepr
  constructor
  · intro j hj
    have hj' : st.nid + 1 ≤ j := hj
    show (if j = st.nid then _ else st.heap j) = none
    rw [if_neg (by omega)]
    exact inv.nb j (by omega)
  · intro j e hj
    have hj' : (if j = st.nid then some { e0 with live := true, epoch := st.epoch }
        else st.heap j) = some e := hj
    by_cases hji : j = st.nid
    · rw [if_pos hji] at hj'
      obtain rfl := (Option.some.inj hj').symm
      show st.epoch ≤ st.epoch
      exact Nat.le_refl _
    · rw [if_neg hji] at hj'
      exact inv.epLe j e hj'
  · intro b hb
    exact htr _ (inv.buckets b hb)
  · exact htr _ inv.headC
  · exact htr _ inv.tailC
  · intro j e hj hlv hcur
    have hj' : (if j = st.nid then some { e0 with live := true, epoch := st.epoch }
        else st.heap j) = some e := hj
    by_cases hji : j = st.nid
    · rw [if_pos hji] at hj'
      obtain rfl := (Option.some.inj hj').symm
      exact ⟨htr _ hnx, htr _ hpv⟩
    · rw [if_neg hji] at hj'
      obtain ⟨hn, hp⟩ := inv.fields j e hj' hlv hcur
      exact ⟨htr _ hn, htr _ hp⟩

theorem cache_evict_no_evictCall {st : cache_t} {ok : Bool} {st' : cache_t} {evs : List CEv}
    (h : cache_evict st ok = some (st', evs)) : evs.count CEv.evictCall = 0 := by
  rcases cache_evict_inv h with ⟨htail, hst, rfl⟩ | ⟨t, e, st1, e1, st2, e2, e3, st4, e4, st5,
      heq, he, h1, he1, h2, he2, he3, h34, he4, h5, h7, hevs⟩
  · rfl
  · rw [hevs, List.count_eq_zero]
    intro hmem
    rcases List.mem_append.mp hmem with h1m | h2m
    · split at h1m
      · rcases List.mem_cons.mp h1m with hc | hc
        · exact CEv.noConfusion hc
        · split at hc <;> simp at hc
      · simp at h1m
    · simp at h2m

theorem szInc_small {n : Nat} (h : n + 1 < U64) : szInc n = n + 1 := by
  unfold szInc
  exact Nat.mod_eq_of_lt h

/-- Common tail of the miss path of `cache_get`: bump the count and evict
if the bound is exceeded.  Keeps the invariant and the count bound. -/
theorem cache_get_finish {st8 : cache_t} {r : Option Nat} {ok : Bool}
    {st' : cache_t} {rv : Option Nat} {evs : List CEv}
    (invC8 : InvC st8) (hel : epochLive st8 = st8.entry_count + 1)
    (hbd : st8.entry_count ≤ MAX_CACHE_ENTRIES) (htl : st8.lru_tail ≠ none)
    (h : (if { st8 with entry_count := szInc st8.entry_count }.entry_count > MAX_CACHE_ENTRIES then
            Option.bind (cache_evict { st8 with entry_count := szInc st8.entry_count } ok)
              fun rr => some (rr.1, r, CEv.evictCall :: rr.2)
          else some ({ st8 with entry_count := szInc st8.entry_count }, r, []))
      = some (st', rv, evs)) :
    Inv0 st' ∧ st'.entry_count ≤ MAX_CACHE_ENTRIES ∧
    (CEv.evictCall ∈ evs → evs.count CEv.evictCall = 1 ∧
      st'.entry_count + 1 = szInc st8.entry_count ∧
      MAX_CACHE_ENTRIES < szInc st8.entry_count) := by
  have hsz : szInc st8.entry_count = st8.entry_count + 1 := by
    refine szInc_small ?_
    unfold MAX_CACHE_ENTRIES at hbd
    unfold U64
    omega
  have inv9 : Inv0 { st8 with entry_count := szInc st8.entry_count } := by
    refine ⟨InvC_update invC8 invC8.buckets invC8.headC invC8.tailC, ?_⟩
    show szInc st8.entry_count = _
    have hel9 : epochLive { st8 with entry_count := szInc st8.entry_count } = epochLive st8 :=
      epochLive_congr rfl rfl rfl
    rw [hel9, hsz]
    omega
  split at h
  case isTrue hgt =>
    rcases Option.bind_eq_some.mp h with ⟨rr, hev, hpair⟩
    obtain ⟨stE, evsE⟩ := rr
    cases Option.some.inj hpair
    rcases cache_evict_inv0 inv9 hev with ⟨invE, hcase⟩
    rcases hcase with ⟨heqE, htailE⟩ | ⟨hdecE, hposE⟩
    · exact absurd htailE htl
    · refine ⟨invE, ?_, ?_⟩
      · show stE.entry_count ≤ MAX_CACHE_ENTRIES
        have h9 : ({ st8 with entry_count := szInc st8.entry_count } : cache_t).entry_count
            = st8.entry_count + 1 := hsz
        omega
      · intro hmem
        refine ⟨?_, ?_, ?_⟩
        · rw [List.count_cons_self, cache_evict_no_evictCall hev]
        · show stE.entry_count + 1 = _
          exact hdecE
        · exact hgt
  case isFalse hle =>
    cases Option.some.inj h
    refine ⟨inv9, ?_, ?_⟩
    · have h9 : ({ st8 with entry_count := szInc st8.entry_count } : cache_t).entry_count
          = st8.entry_count + 1 := hsz
      omega
    · intro hmem
      simp at hmem

/-- A completed `cache_get` preserves the reachable-state invariant and the
`MAX_CACHE_ENTRIES` bound on `entry_count`. -/
theorem cache_get_inv0 {st : cache_t} {env : GetEnv} {off : Nat} {wr : Bool}
    {st' : cache_t} {r : Option Nat} {evs : List CEv}
    (inv : Inv0 st) (hb : st.entry_count ≤ MAX_CACHE_ENTRIES)
    (h : cache_get st env off wr = some (st', r, evs)) :
    Inv0 st' ∧ st'.entry_count ≤ MAX_CACHE_ENTRIES ∧
    (CEv.evictCall ∈ evs → evs.count CEv.evictCall = 1 ∧
      st'.entry_count + 1 = szInc st.entry_count ∧
      MAX_CACHE_ENTRIES < szInc st.entry_count) := by
  obtain ⟨invC, hcnt⟩ := inv
  unfold cache_get at h
  split at h
  · exact Option.noConfusion h
  case h_2 i hfind =>
    rcases Option.map_eq_some'.mp h with ⟨stp, hp, hpair⟩
    cases hpair
    obtain ⟨e, hheap, hlive, hep, hlt⟩ :=
      chainFind_liveCur invC off (st.nid + 1) (st.hash (hash_func off)) i
        (invC.buckets _ (hash_func_lt off)) hfind
    obtain ⟨invP, hcP⟩ := promote_inv0 ⟨invC, hcnt⟩ ⟨e, hheap, hep⟩ hp
    exact ⟨invP, by omega, by intro hmem; simp at hmem⟩
  case h_3 hfind =>
    split at h
    · cases Option.some.inj h
      exact ⟨⟨invC, hcnt⟩, hb, by intro hmem; simp at hmem⟩
    case isFalse halloc =>
      rcases Option.bind_eq_some.mp h with ⟨st2, hw2, hrest⟩
      generalize hE : cache_entry.mk off env.uninit wr env.now
          (st.hash (hash_func off)) none true st.epoch = E0 at hw2 hrest
      generalize hne : (allocE st E0).2 = nd at hw2 hrest
      have hct1 : curOpt (allocE st E0).1 (some nd) := by
        rw [← hne]
        exact ⟨_, (allocE_facts invC.nb).2.2.2.2.2.2.2.2, rfl⟩
      generalize hs1 : (allocE st E0).1 = st1 at hw2 hct1
      have factsA := @allocE_facts st E0 invC.nb
      rw [hs1] at factsA
      have invC1 : InvC st1 := by
        rw [← hs1]
        refine InvC_allocGet invC ?_ ?_
        · rw [← hE]
          exact invC.buckets _ (hash_func_lt off)
        · rw [← hE]
          trivial
      have hc1 : st1.entry_count = st.entry_count := factsA.2.2.2.2.1
      have hel1 : epochLive st1 = epochLive st + 1 := factsA.2.2.2.2.2.2.2.1
      have invC2 : InvC st2 := by
        refine InvC_optWrite invC1 (by intro e0; rfl) (by intro e0; rfl) ?_ ?_ hw2
        · intro j be hp hre
          exact (invC1.fields j be (readE_live hre).2 (readE_live hre).1
            (curOpt_readE (hp ▸ invC1.buckets _ (hash_func_lt off)) hre)).1
        · intro j be hp hre
          exact hct1
      have facts2 := optWrite_facts (by intro e0; rfl) (by intro e0; rfl) hw2
      have hct2 : curOpt st2 (some nd) := epochPreserving_curOpt facts2.2.2.2.2.2.2.1 _ hct1
      have invC3 : InvC { st2 with
          hash := fun b => if b = hash_func off then some nd else st2.hash b } :=
        InvC_hashUpd invC2 hct2
      split at hrest
      case isTrue hrderr =>
        rcases Option.bind_eq_some.mp hrest with ⟨e, he3, hrest⟩
        rcases Option.bind_eq_some.mp hrest with ⟨st4, h4, hrest⟩
        rcases Option.bind_eq_some.mp hrest with ⟨st6, h6, hpair⟩
        have hce3 : e.epoch = st2.epoch := curOpt_readE hct2 he3
        have hlt3 : nd < st2.nid := lt_nid_of_heap invC3 (readE_live he3).2
        have facts4 := freeE_facts he3 (show e.epoch = _ from hce3)
          (show nd < _ from hlt3) h4
        have invC4 := InvC_freeE invC3 h4
        have hfe3 := invC3.fields nd e (readE_live he3).2 (readE_live he3).1
          (show e.epoch = _ from hce3)
        have hnx4 : curOpt st4 e.next := epochPreserving_curOpt facts4.2.2.2.2.2.2.1 _ hfe3.1
        generalize hst5 : (if st4.hash (hash_func off) = some nd then
            { st4 with hash := fun b => if b = hash_func off then e.next else st4.hash b }
          else st4) = st5 at h6
        have hfc5 : InvC st5 ∧ st5.heap = st4.heap ∧ st5.epoch = st4.epoch ∧
            st5.nid = st4.nid ∧ st5.entry_count = st4.entry_count := by
          rw [← hst5]
          split
          · exact ⟨InvC_hashUpd invC4 hnx4, rfl, rfl, rfl, rfl⟩
          · exact ⟨invC4, rfl, rfl, rfl, rfl⟩
        obtain ⟨invC5, hh5, hp5, hn5, hc5⟩ := hfc5
        have hnx5 : curOpt st5 e.next := curOpt_congr hh5 hp5 hnx4
        have invC6 : InvC st6 := by
          refine InvC_optWrite invC5 (by intro e0; rfl) (by intro e0; rfl) ?_ ?_ h6
          · intro j xe hp hre
            exact (invC5.fields j xe (readE_live hre).2 (readE_live hre).1
              (curOpt_readE (hp ▸ hnx5) hre)).1
          · intro j xe hp hre
            trivial
        have facts6 := optWrite_facts (by intro e0; rfl) (by intro e0; rfl) h6
        have e34 : epochLive st2 = epochLive st4 + 1 :=
          (epochLive_congr rfl rfl rfl).trans facts4.2.2.2.2.2.2.2
        have c34 : st4.entry_count = st2.entry_count := facts4.2.2.2.2.1.trans rfl
        have c6 : st6.entry_count = st.entry_count := by
          have b6 : st6.entry_count = st5.entry_count := facts6.2.2.2.2.1
          have b2 : st2.entry_count = st1.entry_count := facts2.2.2.2.2.1
          omega
        have el6 : epochLive st6 = epochLive st := by
          have a6 : epochLive st6 = epochLive st5 := facts6.2.2.2.2.2.2.2
          have a5 : epochLive st5 = epochLive st4 := epochLive_congr hh5 hp5 hn5
          have a2 : epochLive st2 = epochLive st1 := facts2.2.2.2.2.2.2.2
          omega
        cases Option.some.inj hpair
        exact ⟨⟨invC6, by omega⟩, by omega, by intro hmem; simp at hmem⟩
      case isFalse hrderr =>
        rcases Option.bind_eq_some.mp hrest with ⟨st4, h4, hrest⟩
        rcases Option.bind_eq_some.mp hrest with ⟨st5, h5, hrest⟩
        rcases Option.bind_eq_some.mp hrest with ⟨st6, h6, hrest⟩
        have invC4 : InvC st4 := by
          refine InvC_writeE invC3 (by intro e0; rfl) (by intro e0; rfl) ?_ ?_ h4
          · intro ee hre
            exact (invC3.fields nd ee (readE_live hre).2 (readE_live hre).1
              (curOpt_readE (show curOpt _ (some nd) from hct2) hre)).1
          · intro ee hre
            exact (invC3.fields nd ee (readE_live hre).2 (readE_live hre).1
              (curOpt_readE (show curOpt _ (some nd) from hct2) hre)).2
        have facts4 := writeE_facts (by intro e0; rfl) (by intro e0; rfl) h4
        have hct4 : curOpt st4 (some nd) :=
          epochPreserving_curOpt facts4.2.2.2.2.2.2.1 _ (show curOpt _ (some nd) from hct2)
        have invC5 : InvC st5 := by
          refine InvC_writeE invC4 (by intro e0; rfl) (by intro e0; rfl) ?_ ?_ h5
          · intro ee hre
            exact invC4.headC
          · intro ee hre
            trivial
        have facts5 := writeE_facts (by intro e0; rfl) (by intro e0; rfl) h5
        have hct5 : curOpt st5 (some nd) := epochPreserving_curOpt facts5.2.2.2.2.2.2.1 _ hct4
        have invC6 : InvC st6 := by
          refine InvC_optWrite invC5 (by intro e0; rfl) (by intro e0; rfl) ?_ ?_ h6
          · intro j he0 hp hre
            exact (invC5.fields j he0 (readE_live hre).2 (readE_live hre).1
              (curOpt_readE (hp ▸ invC5.headC) hre)).1
          · intro j he0 hp hre
            exact hct5
        have facts6 := optWrite_facts (by intro e0; rfl) (by intro e0; rfl) h6
        have hct6 : curOpt st6 (some nd) := epochPreserving_curOpt facts6.2.2.2.2.2.2.1 _ hct5
        have hc6 : st6.entry_count = st.entry_count := by
          have b6 : st6.entry_count = st5.entry_count := facts6.2.2.2.2.1
          have b5 : st5.entry_count = st4.entry_count := facts5.2.2.2.2.1
          have b4 : st4.entry_count = st2.entry_count := facts4.2.2.2.2.1.trans rfl
          have b2 : st2.entry_count = st1.entry_count := facts2.2.2.2.2.1
          omega
        have hel6 : epochLive st6 = epochLive st + 1 := by
          have a6 : epochLive st6 = epochLive st5 := facts6.2.2.2.2.2.2.2
          have a5 : epochLive st5 = epochLive st4 := facts5.2.2.2.2.2.2.2
          have a4 : epochLive st4 = epochLive st2 :=
            facts4.2.2.2.2.2.2.2.trans (epochLive_congr rfl rfl rfl)
          have a2 : epochLive st2 = epochLive st1 := facts2.2.2.2.2.2.2.2
          omega
        have invC7 : InvC { st6 with lru_head := some nd } :=
          InvC_update invC6 invC6.buckets hct6 invC6.tailC
        simp only [] at hrest
        split at hrest
        case isTrue hc7 =>
          obtain ⟨hI, hB, hEv⟩ := cache_get_finish
            (InvC_update invC7 invC7.buckets invC7.headC
              (show curOpt _ (some nd) from hct6))
            (show epochLive st6 = st6.entry_count + 1 by omega)
            (show st6.entry_count ≤ MAX_CACHE_ENTRIES by omega)
            (fun hcn => Option.noConfusion hcn) hrest
          refine ⟨hI, hB, ?_⟩
          intro hmem
          obtain ⟨hcnt1, hrel, hgt1⟩ := hEv hmem
          have hrel2 : st'.entry_count + 1 = szInc st6.entry_count := hrel
          have hgt2 : MAX_CACHE_ENTRIES < szInc st6.entry_count := hgt1
          rw [hc6] at hrel2 hgt2
          exact ⟨hcnt1, hrel2, hgt2⟩
        case isFalse hc7 =>
          obtain ⟨hI, hB, hEv⟩ := cache_get_finish invC7
            (show epochLive st6 = st6.entry_count + 1 by omega)
            (show st6.entry_count ≤ MAX_CACHE_ENTRIES by omega)
            hc7 hrest
          refine ⟨hI, hB, ?_⟩
          intro hmem
          obtain ⟨hcnt1, hrel, hgt1⟩ := hEv hmem
          have hrel2 : st'.entry_count + 1 = szInc st6.entry_count := hrel
          have hgt2 : MAX_CACHE_ENTRIES < szInc st6.entry_count := hgt1
          rw [hc6] at hrel2 hgt2
          exact ⟨hcnt1, hrel2, hgt2⟩

theorem WeakInv_writeE {st : cache_t} {i : Nat} {f : cache_entry → cache_entry} {st' : cache_t}
    (w : WeakInv st) (hep : ∀ e, (f e).epoch = e.epoch) (h : writeE st i f = some st') :
    WeakInv st' ∧ st'.hash = st.hash ∧ st'.nid = st.nid ∧ st'.epoch = st.epoch := by
  obtain ⟨e, hre, rfl⟩ := writeE_eq h
  obtain ⟨hlive, hheap⟩ := readE_live hre
  refine ⟨⟨?_, ?_⟩, rfl, rfl, rfl⟩
  · intro j hj
    show (if j = i then _ else st.heap j) = none
    by_cases hji : j = i
    · have hn := w.1 j hj
      rw [hji] at hn
      rw [hn] at hheap
      exact Option.noConfusion hheap
    · rw [if_neg hji]
      exact w.1 j hj
  · intro j e0 hj
    have hj' : (if j = i then some (f e) else st.heap j) = some e0 := hj
    by_cases hji : j = i
    · rw [if_pos hji] at hj'
      obtain rfl := (Option.some.inj hj').symm
      show (f e).epoch ≤ st.epoch
      rw [hep]
      exact w.2 i e hheap
    · rw [if_neg hji] at hj'
      exact w.2 j e0 hj'

theorem WeakInv_freeE {st : cache_t} {i : Nat} {st' : cache_t}
    (w : WeakInv st) (h : freeE st i = some st') :
    WeakInv st' ∧ st'.hash = st.hash ∧ st'.nid = st.nid ∧ st'.epoch = st.epoch := by
  obtain ⟨e, hre, rfl⟩ := freeE_eq h
  obtain ⟨hlive, hheap⟩ := readE_live hre
  refine ⟨⟨?_, ?_⟩, rfl, rfl, rfl⟩
  · intro j hj
    show (if j = i then _ else st.heap j) = none
    by_cases hji : j = i
    · have hn := w.1 j hj
      rw [hji] at hn
      rw [hn] at hheap
      exact Option.noConfusion hheap
    · rw [if_neg hji]
      exact w.1 j hj
  · intro j e0 hj
    have hj' : (if j = i then some { e with live := false } else st.heap j) = some e0 := hj
    by_cases hji : j = i
    · rw [if_pos hji] at hj'
      obtain rfl := (Option.some.inj hj').symm
      exact w.2 i e hheap
    · rw [if_neg hji] at hj'
      exact w.2 j e0 hj'

theorem destroyChain_weak {f : Nat → Bool} : ∀ (fuel : Nat) (p : Option Nat) (st : cache_t)
    (r : cache_t × List CEv), WeakInv st → destroyChain f st p fuel = some r →
    WeakInv r.1 ∧ r.1.hash = st.hash ∧ r.1.nid = st.nid ∧ r.1.epoch = st.epoch := by
  intro fuel
  induction fuel with
  | zero =>
    intro p st r w h
    cases p with
    | none =>
      obtain rfl := Option.some.inj h
      exact ⟨w, rfl, rfl, rfl⟩
    | some i => exact Option.noConfusion h
  | succ n ih =>
    intro p st r w h
    cases p with
    | none =>
      obtain rfl := Option.some.inj h
      exact ⟨w, rfl, rfl, rfl⟩
    | some i =>
      unfold destroyChain at h
      rcases Option.bind_eq_some.mp h with ⟨e, hre, h⟩
      rcases Option.bind_eq_some.mp h with ⟨wbres, hwb, h⟩
      rcases Option.bind_eq_some.mp h with ⟨st2, h2, h⟩
      rcases Option.bind_eq_some.mp h with ⟨rest, hrec, h⟩
      obtain rfl := Option.some.inj h
      have hw1 : WeakInv wbres.1 ∧ wbres.1.hash = st.hash ∧ wbres.1.nid = st.nid ∧
          wbres.1.epoch = st.epoch := by
        split at hwb
        · rcases Option.bind_eq_some.mp hwb with ⟨stw, hw, hwb2⟩
          obtain rfl := (Option.some.inj hwb2).symm
          exact WeakInv_writeE w (by intro e0; rfl) hw
        · obtain rfl := (Option.some.inj hwb).symm
          exact ⟨w, rfl, rfl, rfl⟩
      have hw2 := WeakInv_freeE hw1.1 h2
      have hw3 := ih e.next st2 rest hw2.1 hrec
      refine ⟨hw3.1, ?_, ?_, ?_⟩
      · rw [hw3.2.1, hw2.2.1, hw1.2.1]
      · rw [hw3.2.2.1, hw2.2.2.1, hw1.2.2.1]
      · rw [hw3.2.2.2, hw2.2.2.2, hw1.2.2.2]

theorem destroyLoop_weak {f : Nat → Bool} : ∀ (bs : List Nat) (st : cache_t)
    (r : cache_t × List CEv), WeakInv st → destroyLoop f st bs = some r →
    WeakInv r.1 ∧ r.1.nid = st.nid ∧ r.1.epoch = st.epoch ∧
    (∀ x, r.1.hash x = if x ∈ bs then none else st.hash x) := by
  intro bs
  induction bs with
  | nil =>
    intro st r w h
    obtain rfl := Option.some.inj h
    exact ⟨w, rfl, rfl, fun x => by simp⟩
  | cons b bs ih =>
    intro st r w h
    unfold destroyLoop at h
    rcases Option.bind_eq_some.mp h with ⟨r1, h1, h⟩
    rcases Option.bind_eq_some.mp h with ⟨r2, h2, h⟩
    obtain rfl := Option.some.inj h
    have hc := destroyChain_weak (st.nid + 1) (st.hash b) st r1 w h1
    have hw2 : WeakInv { r1.1 with hash := fun x => if x = b then none else r1.1.hash x } :=
      hc.1
    have hl := ih _ r2 hw2 h2
    refine ⟨hl.1, ?_, ?_, ?_⟩
    · rw [hl.2.1]
      exact hc.2.2.1
    · rw [hl.2.2.1]
      exact hc.2.2.2
    · intro x
      rw [hl.2.2.2 x]
      by_cases hxbs : x ∈ bs
      · rw [if_pos hxbs, if_pos (by simp [hxbs])]
      · rw [if_neg hxbs]
        show (if x = b then none else r1.1.hash x) = _
        by_cases hxb : x = b
        · rw [if_pos hxb, if_pos (by simp [hxb])]
        · rw [if_neg hxb, if_neg (by simp [hxb, hxbs]), hc.2.1]

theorem epochLive_bump {st : cache_t}
    (hep : ∀ i e, st.heap i = some e → e.epoch ≤ st.epoch) :
    epochLive { st with lru_head := none, lru_tail := none, entry_count := 0, epoch := st.epoch + 1 } = 0 := by
  unfold epochLive
  rw [List.countP_eq_zero]
  intro a ha
  show ¬ ((match st.heap a with
    | some e => e.live && e.epoch == st.epoch + 1
    | none => false) = true)
  cases hh : st.heap a with
  | none => simp
  | some e =>
    have := hep a e hh
    simp only [Bool.and_eq_true, beq_iff_eq]
    intro hand
    omega

/-- A completed `cache_destroy` re-establishes the invariant with an empty
cache: count 0 and no live current-generation entries. -/
theorem cache_destroy_inv0 {st : cache_t} {f : Nat → Bool} {st' : cache_t} {evs : List CEv}
    (inv : Inv0 st) (h : cache_destroy st f = some (st', evs)) :
    Inv0 st' ∧ st'.entry_count = 0 := by
  rcases Option.bind_eq_some.mp h with ⟨r, hloop, hpair⟩
  cases Option.some.inj hpair
  have w0 : WeakInv st := ⟨inv.1.nb, inv.1.epLe⟩
  obtain ⟨wr, hnid, hepq, hhash⟩ := destroyLoop_weak (List.range HASH_SIZE) st r w0 hloop
  refine ⟨⟨⟨?_, ?_, ?_, ?_, ?_, ?_⟩, ?_⟩, rfl⟩
  · intro i hi
    exact wr.1 i hi
  · intro i e hi
    exact Nat.le_trans (wr.2 i e hi) (Nat.le_succ _)
  · intro b hb
    show curOpt _ (r.1.hash b)
    rw [hhash b, if_pos (List.mem_range.mpr hb)]
    trivial
  · trivial
  · trivial
  · intro i e hi hlv hcur
    have h1 := wr.2 i e hi
    have h2 : e.epoch = r.1.epoch + 1 := hcur
    omega
  · exact (epochLive_bump wr.2).symm

/-- Every state reachable by a completed operation sequence from a state
satisfying the invariant and the count bound still satisfies both. -/
theorem runOps_inv0 : ∀ (ops : List COp) (st : cache_t), Inv0 st →
    st.entry_count ≤ MAX_CACHE_ENTRIES → ∀ st', runOps st ops = some st' →
    Inv0 st' ∧ st'.entry_count ≤ MAX_CACHE_ENTRIES := by
  intro ops
  induction ops with
  | nil =>
    intro st inv hb st' h
    obtain rfl := Option.some.inj h
    exact ⟨inv, hb⟩
  | cons o os ih =>
    intro st inv hb st' h
    unfold runOps at h
    split at h
    · exact Option.noConfusion h
    case h_2 st1 hop =>
      cases o with
      | getO env off wr =>
        simp only [runOp] at hop
        rcases Option.map_eq_some'.mp hop with ⟨trip, hget, h1⟩
        obtain ⟨sa, ra, ea⟩ := trip
        obtain ⟨invA, hbA, hevA⟩ := cache_get_inv0 inv hb hget
        have invA1 : Inv0 st1 := by rw [← h1]; exact invA
        have hbA1 : st1.entry_count ≤ MAX_CACHE_ENTRIES := by rw [← h1]; exact hbA
        exact ih st1 invA1 hbA1 st' h
      | evictO ok =>
        simp only [runOp] at hop
        rcases Option.map_eq_some'.mp hop with ⟨pr, hev, h1⟩
        obtain ⟨sa, ea⟩ := pr
        rcases cache_evict_inv0 inv hev with ⟨invA, hcase⟩
        have hbA : sa.entry_count ≤ MAX_CACHE_ENTRIES := by
          rcases hcase with ⟨heq, htail⟩ | ⟨hdec, hpos⟩
          · rw [heq]; exact hb
          · omega
        have invA1 : Inv0 st1 := by rw [← h1]; exact invA
        have hbA1 : st1.entry_count ≤ MAX_CACHE_ENTRIES := by rw [← h1]; exact hbA
        exact ih st1 invA1 hbA1 st' h
      | destroyO f =>
        simp only [runOp] at hop
        rcases Option.map_eq_some'.mp hop with ⟨pr, hds, h1⟩
        obtain ⟨sa, ea⟩ := pr
        obtain ⟨invA, hzero⟩ := cache_destroy_inv0 inv hds
        have invA1 : Inv0 st1 := by rw [← h1]; exact invA
        have hbA1 : st1.entry_count ≤ MAX_CACHE_ENTRIES := by
          rw [← h1]
          show sa.entry_count ≤ _
          rw [hzero]
          exact Nat.zero_le _
        exact ih st1 invA1 hbA1 st' h

theorem Inv0_stFull : Inv0 stFull := by
  constructor
  · constructor
    · intro i hi
      have hi' : MAX_CACHE_ENTRIES ≤ i := hi
      show (if i < MAX_CACHE_ENTRIES then some (fullEntry i) else none) = none
      rw [if_neg (by omega)]
    · intro i e hi
      have hi' : (if i < MAX_CACHE_ENTRIES then some (fullEntry i) else none) = some e := hi
      by_cases hlt : i < MAX_CACHE_ENTRIES
      · rw [if_pos hlt] at hi'
        obtain rfl := (Option.some.inj hi').symm
        exact Nat.le_refl _
      · rw [if_neg hlt] at hi'
        exact Option.noConfusion hi'
    · intro b hb
      show curOpt stFull (if b = hash_func offFull then none else some 0)
      by_cases hbh : b = hash_func offFull
      · rw [if_pos hbh]
        trivial
      · rw [if_neg hbh]
        exact ⟨fullEntry 0, rfl, rfl⟩
    · exact ⟨fullEntry 0, rfl, rfl⟩
    · exact ⟨fullEntry 0, rfl, rfl⟩
    · intro i e hi hlv hcur
      have hi' : (if i < MAX_CACHE_ENTRIES then some (fullEntry i) else none) = some e := hi
      by_cases hlt : i < MAX_CACHE_ENTRIES
      · rw [if_pos hlt] at hi'
        obtain rfl := (Option.some.inj hi').symm
        exact ⟨trivial, trivial⟩
      · rw [if_neg hlt] at hi'
        exact Option.noConfusion hi'
  · show stFull.entry_count = epochLive stFull
    have hall : epochLive stFull = (List.range stFull.nid).length := by
      apply List.countP_eq_length.mpr
      intro a ha
      have hlt : a < MAX_CACHE_ENTRIES := List.mem_range.mp ha
      have hh : stFull.heap a = some (fullEntry a) := by
        show (if a < MAX_CACHE_ENTRIES then some (fullEntry a) else none) = _
        rw [if_pos hlt]
      simp only [liveCurB, hh]
      rfl
    rw [hall, List.length_range]
    rfl

/-- Claim C5: for every sequence of public cache operations run from the
freshly initialised cache, after each completed operation
`entry_count ≤ MAX_CACHE_ENTRIES`; and whenever a miss raises the count
above the bound (the eviction routine runs, leaving its `evictCall` mark),
it runs exactly once and brings the count back down by one from the raised
value `szInc entry_count` before `cache_get` returns. -/
theorem C5_entry_count_bounded :
    (∀ ops st', runOps cache_init ops = some st' →
        st'.entry_count ≤ MAX_CACHE_ENTRIES) ∧
    (∀ st env off wr st' r evs, Inv0 st → st.entry_count ≤ MAX_CACHE_ENTRIES →
        cache_get st env off wr = some (st', r, evs) →
        CEv.evictCall ∈ evs →
        evs.count CEv.evictCall = 1 ∧
        st'.entry_count + 1 = szInc st.entry_count ∧
        MAX_CACHE_ENTRIES < szInc st.entry_count) := by
  constructor
  · intro ops st' h
    exact (runOps_inv0 ops cache_init Inv0_cache_init (Nat.zero_le _) st' h).2
  · intro st env off wr st' r evs inv hb h hmem
    exact (cache_get_inv0 inv hb h).2.2 hmem

/-- Claim C5 witness: a fresh cache after one load holds one entry (within
the bound), and a `cache_get` on a full cache (8192 live entries) at a
fresh offset triggers exactly one eviction and returns with the count back
at 8192. -/
theorem C5_witness :
    stW.entry_count ≤ MAX_CACHE_ENTRIES ∧
    (c5full.2.2).count CEv.evictCall = 1 ∧
    c5full.1.entry_count + 1 = szInc stFull.entry_count ∧
    MAX_CACHE_ENTRIES < szInc stFull.entry_count :=
  ⟨C5_entry_count_bounded.1 opsW stW (by rfl),
   C5_entry_count_bounded.2 stFull tEnv offFull false c5full.1 c5full.2.1 c5full.2.2
     Inv0_stFull (Nat.le_refl _) (by rfl) (by decide)⟩

theorem writeE_heap_at {st : cache_t} {i : Nat} {f : cache_entry → cache_entry} {st' : cache_t}
    (h : writeE st i f = some st') :
    ∀ j, st'.heap j = if j = i then (st.heap j).map f else st.heap j := by
  obtain ⟨e, hre, rfl⟩ := writeE_eq h
  obtain ⟨hlive, hheap⟩ := readE_live hre
  intro j
  show (if j = i then some (f e) else st.heap j) = _
  by_cases hji : j = i
  · rw [if_pos hji, if_pos hji, hji, hheap]
    rfl
  · rw [if_neg hji, if_neg hji]

theorem optWrite_heap_at {st : cache_t} {p : Option Nat} {f : cache_entry → cache_entry}
    {st' : cache_t} (h : optWrite st p f = some st') :
    ∀ j, st'.heap j = if p = some j then (st.heap j).map f else st.heap j := by
  intro j
  cases p with
  | none =>
    obtain rfl := Option.some.inj h
    rw [if_neg (by intro hc; exact Option.noConfusion hc)]
  | some i =>
    rw [writeE_heap_at h j]
    by_cases hji : j = i
    · rw [if_pos hji, if_pos (by rw [hji])]
    · rw [if_neg hji, if_neg (by intro hc; exact hji (Option.some.inj hc).symm)]

theorem freeE_frame {st : cache_t} {i : Nat} {st' : cache_t} (h : freeE st i = some st') :
    st'.hash = st.hash ∧ st'.nid = st.nid ∧ st'.epoch = st.epoch ∧
    st'.entry_count = st.entry_count ∧ st'.lru_head = st.lru_head ∧
    st'.lru_tail = st.lru_tail ∧
    ∀ j, st'.heap j = if j = i then (st.heap j).map (fun e => { e with live := false })
      else st.heap j := by
  obtain ⟨e, hre, rfl⟩ := freeE_eq h
  obtain ⟨hlive, hheap⟩ := readE_live hre
  refine ⟨rfl, rfl, rfl, rfl, rfl, rfl, ?_⟩
  intro j
  show (if j = i then some { e with live := false } else st.heap j) = _
  by_cases hji : j = i
  · rw [if_pos hji, if_pos hji, hji, hheap]
    rfl
  · rw [if_neg hji, if_neg hji]

theorem chainIds_live {st : cache_t} :
    ∀ p fuel l, chainIds st p fuel = some l → ∀ k ∈ l,
      ∃ e, st.heap k = some e ∧ e.live = true := by
  intro p fuel
  induction fuel generalizing p with
  | zero =>
    intro l hl k hk
    cases p with
    | none =>
      simp only [chainIds] at hl
      obtain rfl := (Option.some.inj hl).symm
      simp at hk
    | some i => exact Option.noConfusion hl
  | succ n ih =>
    intro l hl k hk
    cases p with
    | none =>
      simp only [chainIds] at hl
      obtain rfl := (Option.some.inj hl).symm
      simp at hk
    | some i =>
      unfold chainIds at hl
      cases hr : readE st i with
      | none => rw [hr] at hl; exact Option.noConfusion hl
      | some e =>
        rw [hr] at hl
        rcases Option.map_eq_some'.mp hl with ⟨l', hl', rfl⟩
        rcases List.mem_cons.mp hk with rfl | hk'
        · obtain ⟨hlv, hh⟩ := readE_live hr
          exact ⟨e, hh, hlv⟩
        · exact ih e.next l' hl' k hk'

/-- A completed `cache_get` returns `NULL` exactly when it was a miss which
hit an allocation failure or a read error. -/
theorem c7_fail_iff {st : cache_t} {env : GetEnv} {off : Nat} {wr : Bool}
    {st' : cache_t} {r : Option Nat} {evs : List CEv}
    (h : cache_get st env off wr = some (st', r, evs)) :
    r = none ↔ chainFind st off (st.hash (hash_func off)) (st.nid + 1) = some none ∧
      (env.allocOk = false ∨ env.readErr = true) := by
  unfold cache_get at h
  split at h
  · exact Option.noConfusion h
  case h_2 i hfind =>
    rcases Option.map_eq_some'.mp h with ⟨stp, hp, hpair⟩
    cases hpair
    constructor
    · intro hc
      exact Option.noConfusion hc
    · rintro ⟨hcf, hor⟩
      rw [hfind] at hcf
      exact Option.noConfusion (Option.some.inj hcf)
  case h_3 hfind =>
    split at h
    case isTrue halloc =>
      cases Option.some.inj h
      exact ⟨fun _ => ⟨hfind, Or.inl halloc⟩, fun _ => rfl⟩
    case isFalse halloc =>
      rcases Option.bind_eq_some.mp h with ⟨st2, hw2, hrest⟩
      split at hrest
      case isTrue hred =>
        rcases Option.bind_eq_some.mp hrest with ⟨e, he3, hrest⟩
        rcases Option.bind_eq_some.mp hrest with ⟨st4, h4, hrest⟩
        rcases Option.bind_eq_some.mp hrest with ⟨st6, h6, hpair⟩
        cases Option.some.inj hpair
        exact ⟨fun _ => ⟨hfind, Or.inr hred⟩, fun _ => rfl⟩
      case isFalse hred =>
        rcases Option.bind_eq_some.mp hrest with ⟨st4, h4, hrest⟩
        rcases Option.bind_eq_some.mp hrest with ⟨st5, h5, hrest⟩
        rcases Option.bind_eq_some.mp hrest with ⟨st6, h6, hrest⟩
        simp only [] at hrest
        split at hrest
        · split at hrest
          · rcases Option.bind_eq_some.mp hrest with ⟨rr, hev, hpair⟩
            cases Option.some.inj hpair
            refine ⟨fun hc => Option.noConfusion hc, ?_⟩
            rintro ⟨hcf, h1 | h1⟩
            · exact absurd h1 halloc
            · exact absurd h1 hred
          · cases Option.some.inj hrest
            refine ⟨fun hc => Option.noConfusion hc, ?_⟩
            rintro ⟨hcf, h1 | h1⟩
            · exact absurd h1 halloc
            · exact absurd h1 hred
        · split at hrest
          · rcases Option.bind_eq_some.mp hrest with ⟨rr, hev, hpair⟩
            cases Option.some.inj hpair
            refine ⟨fun hc => Option.noConfusion hc, ?_⟩
            rintro ⟨hcf, h1 | h1⟩
            · exact absurd h1 halloc
            · exact absurd h1 hred
          · cases Option.some.inj hrest
            refine ⟨fun hc => Option.noConfusion hc, ?_⟩
            rintro ⟨hcf, h1 | h1⟩
            · exact absurd h1 halloc
            · exact absurd h1 hred

/-- The read-error teardown of `cache_get`: count, LRU anchors and all
bucket pointers are restored, the fresh entry is freed and appears on no
walk, but the old bucket head's `prev` pointer is reset to `NULL` rather
than to its pre-call value. -/
theorem c7_teardown {st : cache_t} {env : GetEnv} {off : Nat} {wr : Bool}
    {st' : cache_t} {evs : List CEv}
    (hnb : ∀ i, st.nid ≤ i → st.heap i = none)
    (hred : env.readErr = true) (hallocT : env.allocOk = true)
    (h : cache_get st env off wr = some (st', none, evs)) :
    st'.entry_count = st.entry_count ∧ st'.lru_head = st.lru_head ∧
    st'.lru_tail = st.lru_tail ∧ (∀ b, st'.hash b = st.hash b) ∧
    (∃ ed, st'.heap st.nid = some ed ∧ ed.live = false) ∧
    (∀ p fuel l, chainIds st' p fuel = some l → st.nid ∉ l) ∧
    (∀ j0, st.hash (hash_func off) = some j0 →
      ∃ eh, st'.heap j0 = some eh ∧ eh.prev = none) := by
  unfold cache_get at h
  split at h
  · exact Option.noConfusion h
  case h_2 i hfind =>
    rcases Option.map_eq_some'.mp h with ⟨stp, hp, hpair⟩
    simp [Prod.ext_iff] at hpair
  case h_3 hfind =>
    split at h
    case isTrue halloc =>
      rw [halloc] at hallocT
      exact Bool.noConfusion hallocT
    case isFalse halloc =>
      rcases Option.bind_eq_some.mp h with ⟨st2, hw2, hrest⟩
      generalize hE : cache_entry.mk off env.uninit wr env.now
          (st.hash (hash_func off)) none true st.epoch = E0 at hw2 hrest
      generalize hne : (allocE st E0).2 = nd at hw2 hrest
      have hndeq : nd = st.nid := by
        rw [← hne]
        rfl
      generalize hs1 : (allocE st E0).1 = st1 at hw2
      have factsA := @allocE_facts st E0 hnb
      rw [hs1] at factsA
      have hA : st1.heap st.nid = some { E0 with live := true, epoch := st.epoch } :=
        factsA.2.2.2.2.2.2.2.2
      have facts2 := optWrite_facts (by intro e0; rfl) (by intro e0; rfl) hw2
      rcases Option.bind_eq_some.mp hrest with ⟨e, he3, hrest⟩
      rcases Option.bind_eq_some.mp hrest with ⟨st4, h4, hrest⟩
      rcases Option.bind_eq_some.mp hrest with ⟨st6, h6, hpair⟩
      cases Option.some.inj hpair
      have hE0next : E0.next = st.hash (hash_func off) := by rw [← hE]
      have h2heap := optWrite_heap_at hw2
      have hfresh2 : ∃ f2e, st2.heap nd = some f2e ∧
          f2e.next = st.hash (hash_func off) ∧ f2e.live = true := by
        rw [h2heap nd, hndeq, hA]
        split
        · exact ⟨_, rfl, hE0next, rfl⟩
        · exact ⟨_, rfl, hE0next, rfl⟩
      obtain ⟨f2e, hf2e, hf2next, hf2live⟩ := hfresh2
      have heEq : f2e = e := by
        have hh2 : st2.heap nd = some e := (readE_live he3).2
        rw [hf2e] at hh2
        exact Option.some.inj hh2
      subst heEq
      have hframe4 := freeE_frame h4
      have h4heap := hframe4.2.2.2.2.2.2
      have hguard : st4.hash (hash_func off) = some nd := by
        rw [hframe4.1]
        show (if hash_func off = hash_func off then some nd
          else st2.hash (hash_func off)) = _
        rw [if_pos rfl]
      rw [if_pos hguard] at h6
      have facts6 := optWrite_facts (by intro e0; rfl) (by intro e0; rfl) h6
      have h6heap := optWrite_heap_at h6
      have h5heapnd : st4.heap nd = some { f2e with live := false } := by
        rw [h4heap nd, if_pos rfl]
        show (st2.heap nd).map _ = _
        rw [hf2e]
        rfl
      have hdead : ∃ ed, st'.heap nd = some ed ∧ ed.live = false := by
        rw [h6heap nd]
        split
        · show ∃ ed, (st4.heap nd).map _ = some ed ∧ _
          rw [h5heapnd]
          exact ⟨_, rfl, rfl⟩
        · show ∃ ed, st4.heap nd = some ed ∧ _
          rw [h5heapnd]
          exact ⟨_, rfl, rfl⟩
      refine ⟨?_, ?_, ?_, ?_, ?_, ?_, ?_⟩
      · have b6 : st'.entry_count = st4.entry_count := facts6.2.2.2.2.1.trans rfl
        have b4 : st4.entry_count = st2.entry_count := hframe4.2.2.2.1.trans rfl
        have b2 : st2.entry_count = st1.entry_count := facts2.2.2.2.2.1
        have b1 : st1.entry_count = st.entry_count := factsA.2.2.2.2.1
        omega
      · have b6 : st'.lru_head = st4.lru_head := facts6.2.2.1.trans rfl
        have b4 : st4.lru_head = st2.lru_head := hframe4.2.2.2.2.1.trans rfl
        have b2 : st2.lru_head = st1.lru_head := facts2.2.2.1
        have b1 : st1.lru_head = st.lru_head := factsA.2.2.1
        rw [b6, b4, b2, b1]
      · have b6 : st'.lru_tail = st4.lru_tail := facts6.2.2.2.1.trans rfl
        have b4 : st4.lru_tail = st2.lru_tail := hframe4.2.2.2.2.2.1.trans rfl
        have b2 : st2.lru_tail = st1.lru_tail := facts2.2.2.2.1
        have b1 : st1.lru_tail = st.lru_tail := factsA.2.2.2.1
        rw [b6, b4, b2, b1]
      · intro b
        rw [facts6.2.1]
        show (if b = hash_func off then f2e.next else st4.hash b) = st.hash b
        by_cases hbh : b = hash_func off
        · rw [if_pos hbh, hf2next, hbh]
        · rw [if_neg hbh, hframe4.1]
          show (if b = hash_func off then some nd else st2.hash b) = _
          rw [if_neg hbh, facts2.2.1, factsA.2.1]
      · rw [← hndeq]
        exact hdead
      · intro p fuel l hl hmem
        obtain ⟨e', he', hlv⟩ := chainIds_live p fuel l hl st.nid hmem
        obtain ⟨ed, hed, hlvf⟩ := hdead
        rw [hndeq] at hed
        rw [hed] at he'
        obtain rfl := Option.some.inj he'
        rw [hlvf] at hlv
        exact Bool.noConfusion hlv
      · intro j0 hj0
        have hj0' : f2e.next = some j0 := hf2next.trans hj0
        rw [hj0'] at h6
        obtain ⟨ej1, hej1, heq6⟩ := writeE_eq h6
        have hw := writeE_heap_at h6 j0
        rw [if_pos rfl] at hw
        have hh5 := (readE_live hej1).2
        rw [hh5] at hw
        exact ⟨_, hw, rfl⟩

/-- Claim C7, corrected: `cache_get` returns `NULL` exactly on a miss that
hits an allocation failure or a positioned-read error; on a read error the
partial entry is freed, the count, the LRU anchors and every bucket pointer
are restored, and the entry appears on no chain walk — but the state is not
fully unchanged: the old bucket head's `prev` pointer is reset to `NULL`
instead of its pre-call value. -/
theorem C7_fail_and_teardown :
    (∀ st env off wr st' r evs, cache_get st env off wr = some (st', r, evs) →
      (r = none ↔ chainFind st off (st.hash (hash_func off)) (st.nid + 1) = some none ∧
        (env.allocOk = false ∨ env.readErr = true))) ∧
    (∀ st env off wr st' evs, (∀ i, st.nid ≤ i → st.heap i = none) →
      env.readErr = true → env.allocOk = true →
      cache_get st env off wr = some (st', none, evs) →
      st'.entry_count = st.entry_count ∧ st'.lru_head = st.lru_head ∧
      st'.lru_tail = st.lru_tail ∧ (∀ b, st'.hash b = st.hash b) ∧
      (∃ ed, st'.heap st.nid = some ed ∧ ed.live = false) ∧
      (∀ p fuel l, chainIds st' p fuel = some l → st.nid ∉ l) ∧
      (∀ j0, st.hash (hash_func off) = some j0 →
        ∃ eh, st'.heap j0 = some eh ∧ eh.prev = none)) :=
  ⟨fun st env off wr st' r evs h => c7_fail_iff h,
   fun st env off wr st' evs hnb hr ha h => c7_teardown hnb hr ha h⟩

/-- Claim C7 counterexample (against "leaving the cache state unchanged"):
in the two-entry cache `c7pre` the bucket head (entry 0) has `prev = entry 1`
set by the LRU list; after a failed `cache_get` (read error) at a same-bucket
offset the call returns `NULL` and the count is unchanged, but entry 0's
`prev` has been reset to `NULL`. -/
theorem C7_counterexample_prev_reset :
    ((c7pre.heap 0).map cache_entry.prev = some (some 1)) ∧
    c7res.2.1 = none ∧
    ((c7res.1.heap 0).map cache_entry.prev = some none) ∧
    c7res.1.entry_count = c7pre.entry_count :=
  ⟨rfl, rfl, rfl, rfl⟩

/-- Claim C7 witness: the corrected theorem applied to the concrete failed
call on `c7pre`. -/
theorem C7_witness :
    ((none : Option Nat) = none ↔
      chainFind c7pre offB (c7pre.hash (hash_func offB)) (c7pre.nid + 1) = some none ∧
      (tEnvErr.allocOk = false ∨ tEnvErr.readErr = true)) ∧
    c7res.1.entry_count = c7pre.entry_count :=
  ⟨C7_fail_and_teardown.1 c7pre tEnvErr offB true c7res.1 none c7res.2.2 (by rfl),
   (C7_fail_and_teardown.2 c7pre tEnvErr offB true c7res.1 c7res.2.2
      (runOps_inv0 [COp.getO tEnv offA true, COp.getO tEnv offC true] cache_init
        Inv0_cache_init (Nat.zero_le _) c7pre (by rfl)).1.1.nb
      (by rfl) (by rfl) (by rfl)).1⟩

theorem donorScanAux_mono (qs : Fin CORES → List WorkUnit) (core : Fin CORES) :
    ∀ (l : List (Fin CORES)) (best : Option (Fin CORES)) (m : Nat),
      m ≤ (donorScanAux qs core l best m).2 ∧
      (∀ i ∈ l, i ≠ core → (qs i).length ≤ (donorScanAux qs core l best m).2) := by
  intro l
  induction l with
  | nil =>
    intro best m
    exact ⟨Nat.le_refl _, by intro i hi; simp at hi⟩
  | cons i rest ih =>
    intro best m
    simp only [donorScanAux]
    by_cases hic : i = core
    · rw [if_pos hic]
      refine ⟨(ih best m).1, ?_⟩
      intro iq hiq hne
      rcases List.mem_cons.mp hiq with rfl | hmem
      · exact absurd hic hne
      · exact (ih best m).2 iq hmem hne
    · rw [if_neg hic]
      by_cases hgt : (qs i).length > m
      · rw [if_pos hgt]
        refine ⟨Nat.le_trans (Nat.le_of_lt hgt) (ih (some i) (qs i).length).1, ?_⟩
        intro iq hiq hne
        rcases List.mem_cons.mp hiq with rfl | hmem
        · exact (ih (some iq) (qs iq).length).1
        · exact (ih (some i) (qs i).length).2 iq hmem hne
      · rw [if_neg hgt]
        refine ⟨(ih best m).1, ?_⟩
        intro iq hiq hne
        rcases List.mem_cons.mp hiq with rfl | hmem
        · exact Nat.le_trans (Nat.le_of_not_lt hgt) (ih best m).1
        · exact (ih best m).2 iq hmem hne

theorem donorScanAux_some (qs : Fin CORES → List WorkUnit) (core : Fin CORES) :
    ∀ (l : List (Fin CORES)) (best : Option (Fin CORES)) (m : Nat),
      (∀ d, best = some d → d ≠ core ∧ (qs d).length = m) →
      ∀ d, (donorScanAux qs core l best m).1 = some d →
        d ≠ core ∧ (qs d).length = (donorScanAux qs core l best m).2 := by
  intro l
  induction l with
  | nil =>
    intro best m hinv d hd
    exact hinv d hd
  | cons i rest ih =>
    intro best m hinv d hd
    simp only [donorScanAux] at hd ⊢
    by_cases hic : i = core
    · rw [if_pos hic] at hd ⊢
      exact ih best m hinv d hd
    · rw [if_neg hic] at hd ⊢
      by_cases hgt : (qs i).length > m
      · rw [if_pos hgt] at hd ⊢
        refine ih (some i) (qs i).length ?_ d hd
        intro d' hd'
        obtain rfl := (Option.some.inj hd').symm
        exact ⟨hic, rfl⟩
      · rw [if_neg hgt] at hd ⊢
        exact ih best m hinv d hd

theorem donorScanAux_empty (qs : Fin CORES → List WorkUnit) (core : Fin CORES) :
    ∀ (l : List (Fin CORES)), (∀ i ∈ l, i ≠ core → qs i = []) →
      donorScanAux qs core l none 0 = (none, 0) := by
  intro l
  induction l with
  | nil => intro h; rfl
  | cons i rest ih =>
    intro h
    simp only [donorScanAux]
    by_cases hic : i = core
    · rw [if_pos hic]
      exact ih (fun j hj hne => h j (List.mem_cons_of_mem _ hj) hne)
    · rw [if_neg hic, h i (List.mem_cons_self _ _) hic, if_neg (by simp)]
      exact ih (fun j hj hne => h j (List.mem_cons_of_mem _ hj) hne)

theorem hotScanAux_mono (now : Int) :
    ∀ (l : List WorkUnit) (idx : Nat) (best : Option Nat) (m : Int),
      m ≤ (hotScanAux now l idx best m).2 := by
  intro l
  induction l with
  | nil => intro idx best m; exact le_refl _
  | cons u rest ih =>
    intro idx best m
    simp only [hotScanAux]
    by_cases hc : u.hot > m ∧ now - u.last_seen < 10
    · rw [if_pos hc]
      exact le_trans (le_of_lt hc.1) (ih (idx + 1) (some idx) u.hot)
    · rw [if_neg hc]
      exact ih (idx + 1) best m

theorem hotScanAux_bound (now : Int) :
    ∀ (l : List WorkUnit) (idx : Nat) (best : Option Nat) (m : Int),
      ∀ v ∈ l, inWindow now v → v.hot ≤ (hotScanAux now l idx best m).2 := by
  intro l
  induction l with
  | nil => intro idx best m v hv; simp at hv
  | cons u rest ih =>
    intro idx best m v hv hw
    simp only [hotScanAux]
    by_cases hc : u.hot > m ∧ now - u.last_seen < 10
    · rw [if_pos hc]
      rcases List.mem_cons.mp hv with rfl | hmem
      · exact hotScanAux_mono now rest (idx + 1) (some idx) v.hot
      · exact ih (idx + 1) (some idx) u.hot v hmem hw
    · rw [if_neg hc]
      rcases List.mem_cons.mp hv with rfl | hmem
      · have hle : ¬ v.hot > m := fun hh => hc ⟨hh, hw⟩
        exact le_trans (le_of_not_lt hle) (hotScanAux_mono now rest (idx + 1) best m)
      · exact ih (idx + 1) best m v hmem hw

theorem hotScanAux_sound (now : Int) (O : List WorkUnit) :
    ∀ (l : List WorkUnit) (idx : Nat) (best : Option Nat) (m : Int),
      (∀ k, l.get? k = O.get? (idx + k)) →
      (∀ j, best = some j →
        ∃ u, O.get? j = some u ∧ u.hot = m ∧ 0 < u.hot ∧ inWindow now u) →
      0 ≤ m →
      ∀ j, (hotScanAux now l idx best m).1 = some j →
        ∃ u, O.get? j = some u ∧ u.hot = (hotScanAux now l idx best m).2 ∧
          0 < u.hot ∧ inWindow now u := by
  intro l
  induction l with
  | nil =>
    intro idx best m hget hinv hm j hj
    exact hinv j hj
  | cons u rest ih =>
    intro idx best m hget hinv hm j hj
    simp only [hotScanAux] at hj ⊢
    by_cases hc : u.hot > m ∧ now - u.last_seen < 10
    · rw [if_pos hc] at hj ⊢
      refine ih (idx + 1) (some idx) u.hot ?_ ?_ ?_ j hj
      · intro k
        rw [show idx + 1 + k = idx + (k + 1) by omega]
        exact hget (k + 1)
      · intro j' hj'
        obtain rfl := (Option.some.inj hj').symm
        have h0 := hget 0
        rw [Nat.add_zero] at h0
        exact ⟨u, h0.symm, rfl, lt_of_le_of_lt hm hc.1, hc.2⟩
      · exact le_of_lt (lt_of_le_of_lt hm hc.1)
    · rw [if_neg hc] at hj ⊢
      refine ih (idx + 1) best m ?_ hinv hm j hj
      intro k
      rw [show idx + 1 + k = idx + (k + 1) by omega]
      exact hget (k + 1)

/-- Claim C8: `scheduler_get_migrated_task` either returns the `0` sentinel
with the queues untouched, or picks a foreign worker whose queue count is
maximal and exceeds `MIGRATION_THRESHOLD`, selects in it a unit of positive
hotness seen within 10 seconds that is hottest among the in-window units,
removes it from the donor queue and returns its offset; with every foreign
queue empty (single worker) it returns the sentinel and no foreign offset. -/
theorem C8_get_migrated_task_spec :
    ∀ (qs : Fin CORES → List WorkUnit) (core : Fin CORES) (now : Int),
      ((∀ i, i ≠ core → qs i = []) → scheduler_get_migrated_task qs core now = (0, qs)) ∧
      (∀ r qs', scheduler_get_migrated_task qs core now = (r, qs') →
        (r = 0 ∧ qs' = qs) ∨
        ∃ d idx u, d ≠ core ∧
          MIGRATION_THRESHOLD < (qs d).length ∧
          (∀ i, i ≠ core → (qs i).length ≤ (qs d).length) ∧
          (qs d).get? idx = some u ∧ 0 < u.hot ∧ inWindow now u ∧
          (∀ v ∈ qs d, inWindow now v → v.hot ≤ u.hot) ∧
          r = u.block ∧
          qs' = fun j => if j = d then (qs d).eraseIdx idx else qs j) := by
  intro qs core now
  constructor
  · intro hempty
    unfold scheduler_get_migrated_task
    rw [donorScanAux_empty qs core coreIdxs (fun i _ hne => hempty i hne)]
  · intro r qs' h
    unfold scheduler_get_migrated_task at h
    split at h
    case h_1 heq =>
      cases h
      exact Or.inl ⟨rfl, rfl⟩
    case h_2 d heq =>
      split at h
      case isTrue hth =>
        split at h
        case h_1 heq2 =>
          cases h
          exact Or.inl ⟨rfl, rfl⟩
        case h_2 idx heq2 =>
          cases h
          obtain ⟨hdne, hlen⟩ := donorScanAux_some qs core coreIdxs none 0
            (fun d' hd' => Option.noConfusion hd') d heq
          have hbound := (donorScanAux_mono qs core coreIdxs none 0).2
          have hall : ∀ i : Fin CORES, i ∈ coreIdxs := by decide
          obtain ⟨u, hget, hhot, hpos, hwin⟩ := hotScanAux_sound now (qs d) (qs d) 0 none 0
            (fun k => by rw [Nat.zero_add]) (fun j hj => Option.noConfusion hj)
            (le_refl 0) idx heq2
          have hgetD : (qs d).getD idx default = u := by
            rw [List.getD_eq_getElem?_getD, ← List.get?_eq_getElem?, hget]
            rfl
          refine Or.inr ⟨d, idx, u, hdne, ?_, ?_, hget, hpos, hwin, ?_, ?_, rfl⟩
          · rw [hlen]
            exact hth
          · intro i hne
            rw [hlen]
            exact hbound i (hall i) hne
          · intro v hv hw
            have hb := hotScanAux_bound now (qs d) 0 none 0 v hv hw
            rw [← hhot] at hb
            exact hb
          · rw [hgetD]
      case isFalse hth =>
        cases h
        exact Or.inl ⟨rfl, rfl⟩

/-- Claim C8 witness: with a single active worker every foreign queue is
empty and the call returns the sentinel; on the populated queues `qsW` the
characterization applied to the concrete call. -/
theorem C8_witness :
    scheduler_get_migrated_task qs0 0 0 = (0, qs0) ∧
    ((c8res.1 = 0 ∧ c8res.2 = qsW) ∨
      ∃ d idx u, d ≠ (0 : Fin CORES) ∧
        MIGRATION_THRESHOLD < (qsW d).length ∧
        (∀ i, i ≠ (0 : Fin CORES) → (qsW i).length ≤ (qsW d).length) ∧
        (qsW d).get? idx = some u ∧ 0 < u.hot ∧ inWindow 0 u ∧
        (∀ v ∈ qsW d, inWindow 0 v → v.hot ≤ u.hot) ∧
        c8res.1 = u.block ∧
        c8res.2 = fun j => if j = d then (qsW d).eraseIdx idx else qsW j) :=
  ⟨(C8_get_migrated_task_spec qs0 0 0).1 (fun i _ => rfl),
   (C8_get_migrated_task_spec qsW 0 0).2 c8res.1 c8res.2 (by rfl)⟩

/-- Claim C10: the scheduler's no-task sentinel is the integer `0`, which the
worker loop (`if (m) offset = m;`) never adopts; yet a unit whose block
offset is `0` can be selected for migration, in which case the call returns
`0` after removing the unit — the offset-0 unit is silently dropped. -/
theorem C10_zero_offset_sentinel :
    (∀ off m : Nat, adoptMigrated off m = if m ≠ 0 then m else off) ∧
    (∀ (qs : Fin CORES → List WorkUnit) (core : Fin CORES) (now : Int) r qs',
      scheduler_get_migrated_task qs core now = (r, qs') → r = 0 →
      (∀ off : Nat, adoptMigrated off r = off) ∧
      (qs' = qs ∨
        ∃ d idx u, d ≠ core ∧ (qs d).get? idx = some u ∧ u.block = 0 ∧
          qs' = (fun j => if j = d then (qs d).eraseIdx idx else qs j) ∧
          (qs' d).length + 1 = (qs d).length)) := by
  constructor
  · intro off m
    rfl
  · intro qs core now r qs' h hr0
    constructor
    · intro off
      rw [hr0]
      rfl
    · unfold scheduler_get_migrated_task at h
      split at h
      case h_1 heq =>
        cases h
        exact Or.inl rfl
      case h_2 d heq =>
        split at h
        case isTrue hth =>
          split at h
          case h_1 heq2 =>
            cases h
            exact Or.inl rfl
          case h_2 idx heq2 =>
            cases h
            obtain ⟨hdne, hlen⟩ := donorScanAux_some qs core coreIdxs none 0
              (fun d' hd' => Option.noConfusion hd') d heq
            obtain ⟨u, hget, hhot, hpos, hwin⟩ := hotScanAux_sound now (qs d) (qs d) 0 none 0
              (fun k => by rw [Nat.zero_add]) (fun j hj => Option.noConfusion hj)
              (le_refl 0) idx heq2
            have hgetD : (qs d).getD idx default = u := by
              rw [List.getD_eq_getElem?_getD, ← List.get?_eq_getElem?, hget]
              rfl
            have hidx : idx < (qs d).length := by
              by_contra hge
              rw [List.get?_eq_none.mpr (by omega)] at hget
              exact Option.noConfusion hget
            refine Or.inr ⟨d, idx, u, hdne, hget, ?_, rfl, ?_⟩
            · rw [hgetD] at hr0
              exact hr0
            · show (if d = d then (qs d).eraseIdx idx else qs d).length + 1 = (qs d).length
              rw [if_pos rfl, List.length_eraseIdx]
              rw [if_pos hidx]
              omega
        case isFalse hth =>
          cases h
          exact Or.inl rfl

/-- Claim C10 witness: the concrete call on `qsW` (hottest migratable unit
at block offset 0) returns the sentinel yet shrinks the donor queue. -/
theorem C10_witness :
    (∀ off : Nat, adoptMigrated off c10res.1 = off) ∧
    (c10res.2 = qsW ∨
      ∃ d idx u, d ≠ (0 : Fin CORES) ∧ (qsW d).get? idx = some u ∧ u.block = 0 ∧
        c10res.2 = (fun j => if j = d then (qsW d).eraseIdx idx else qsW j) ∧
        (c10res.2 d).length + 1 = (qsW d).length) :=
  C10_zero_offset_sentinel.2 qsW 0 0 c10res.1 c10res.2 (by rfl) (by rfl)

end PseudoCore
